import Mathlib

set_option linter.unusedSectionVars false
set_option linter.unusedVariables false

/-!
# Verification of the ConcurrentHashset repository

Shallow embedding of the four hash-set variants
(`HashSetSequential`, `HashSetCoarseGrained`, `HashSetStriped`,
`HashSetRefinable`) from `src/hash_set_*.h`, together with proofs of the
testable properties stated for them.

The C++ classes are templated over an element type `T` with `std::hash<T>`
and `operator==`; the embedding is parametrised over a type `α` with
decidable equality and an explicit hash function `hash : α → Nat`.

All claims quantify over *sequential* executions (one complete operation at
a time), which is exactly the setting in which lock acquisition and release
are no-ops; the mutexes therefore leave no trace in the state except where
their bookkeeping is itself observable (`mutex_count_` in the striped and
refinable variants, which the code stores and indexes by).  Machine
arithmetic: every arithmetic operation performed by the code
(`size_t` increment/decrement, `% capacity_`, `capacity_ *= 2`) stays far
below `2^64` in any execution we reason about, and none of the code relies
on wraparound, so `Nat` is used directly; the one genuinely partial
operation, C++ `%` with divisor `0`, is modelled by the fallible
`mod?`-layer operations below.
-/

namespace ConcurrentHashset

variable {α : Type} [DecidableEq α]

/-- A table is a vector of buckets, the embedding of
`std::vector<std::vector<T>> table_`.  Bucket access `table_[i]` is
`bucketAt t i`; all indices used by the code are in range whenever
`capacity_ = t.length` and the modulus is positive. -/
def bucketAt (t : List (List α)) (i : Nat) : List α :=
  t.getD i []

/-- `std::vector<std::vector<T>>(c, std::vector<T>())`: a table of `c`
empty buckets. -/
def emptyTable (c : Nat) : List (List α) :=
  List.replicate c []

/-- `table[i].push_back(e)`: append `e` at the end of bucket `i`. -/
def insertBucket (t : List (List α)) (i : Nat) (e : α) : List (List α) :=
  t.set i (bucketAt t i ++ [e])

/-- The rehash loop shared verbatim by all four variants' resize code:
`for (auto &bucket : table_) for (T curr_elem : bucket)
 new_table[hash(curr_elem) % capacity_].push_back(curr_elem);`
starting from a fresh table of `newCap` empty buckets. -/
def rehash (hash : α → Nat) (newCap : Nat) (t : List (List α)) : List (List α) :=
  t.foldl
    (fun acc bucket =>
      bucket.foldl (fun acc2 e => insertBucket acc2 (hash e % newCap) e) acc)
    (emptyTable newCap)

/-- Number of element entries in the table (the sum of all bucket lengths). -/
def tableSize (t : List (List α)) : Nat :=
  (t.map List.length).sum

/-- State of `HashSetSequential<T>`: `table_`, `capacity_`, `size_`. -/
structure SeqState (α : Type) where
  table_ : List (List α)
  capacity_ : Nat
  size_ : Nat
deriving DecidableEq

/-- State of `HashSetStriped<T>`: `table_`, the length `mutex_count_` of the
`std::mutex` array (the mutexes themselves carry no sequential state), and
`capacity_`, `size_`. -/
structure StripedState (α : Type) where
  table_ : List (List α)
  mutex_count_ : Nat
  capacity_ : Nat
  size_ : Nat
deriving DecidableEq

/-- State of `HashSetRefinable<T>`: `table_`, the length `mutex_count_` of
the growable `mutexes_` vector, and `capacity_`, `size_`. -/
structure RefinableState (α : Type) where
  table_ : List (List α)
  mutex_count_ : Nat
  capacity_ : Nat
  size_ : Nat
deriving DecidableEq

namespace HashSetSequential

/-- `HashSetSequential(initial_capacity)`. -/
def mk (c : Nat) : SeqState α :=
  ⟨emptyTable c, c, 0⟩

/-- `HashSetSequential::Add`: compute the bucket index, return `false` if
the element is already in its bucket; otherwise push it, bump `size_`, and
if `size_ > 4 * capacity_` double `capacity_` and rebuild the table. -/
def Add (hash : α → Nat) (s : SeqState α) (elem : α) : SeqState α × Bool :=
  let h := hash elem % s.capacity_
  if elem ∈ bucketAt s.table_ h then
    (s, false)
  else
    let table1 := insertBucket s.table_ h elem
    let size1 := s.size_ + 1
    if size1 > 4 * s.capacity_ then
      (⟨rehash hash (s.capacity_ * 2) table1, s.capacity_ * 2, size1⟩, true)
    else
      (⟨table1, s.capacity_, size1⟩, true)

/-- `HashSetSequential::Remove`: return `false` if the element is not in
its bucket; otherwise erase it (the first, hence only, occurrence) and
decrement `size_`. -/
def Remove (hash : α → Nat) (s : SeqState α) (elem : α) : SeqState α × Bool :=
  let h := hash elem % s.capacity_
  if elem ∈ bucketAt s.table_ h then
    (⟨s.table_.set h ((bucketAt s.table_ h).erase elem), s.capacity_, s.size_ - 1⟩, true)
  else
    (s, false)

/-- `HashSetSequential::Contains`: membership test in the element's bucket. -/
def Contains (hash : α → Nat) (s : SeqState α) (elem : α) : Bool :=
  decide (elem ∈ bucketAt s.table_ (hash elem % s.capacity_))

/-- `HashSetSequential::Size`. -/
def Size (s : SeqState α) : Nat :=
  s.size_

end HashSetSequential

namespace HashSetCoarseGrained

/-- `HashSetCoarseGrained(initial_capacity)`: same fields and initialisation
as the sequential variant (the mutex holds no sequential state). -/
def mk (c : Nat) : SeqState α :=
  ⟨emptyTable c, c, 0⟩

/-- `HashSetCoarseGrained::Add`: under the coarse `std::scoped_lock` (a
no-op in a sequential execution) the body is line-for-line the body of
`HashSetSequential::Add`. -/
def Add (hash : α → Nat) (s : SeqState α) (elem : α) : SeqState α × Bool :=
  HashSetSequential.Add hash s elem

/-- `HashSetCoarseGrained::Remove`: under the lock, the body of
`HashSetSequential::Remove`. -/
def Remove (hash : α → Nat) (s : SeqState α) (elem : α) : SeqState α × Bool :=
  HashSetSequential.Remove hash s elem

/-- `HashSetCoarseGrained::Contains`: under the lock, the body of
`HashSetSequential::Contains`. -/
def Contains (hash : α → Nat) (s : SeqState α) (elem : α) : Bool :=
  HashSetSequential.Contains hash s elem

/-- `HashSetCoarseGrained::Size`. -/
def Size (s : SeqState α) : Nat :=
  s.size_

end HashSetCoarseGrained

namespace HashSetStriped

/-- `HashSetStriped(initial_capacity)`: table of `initial_capacity` empty
buckets, `mutex_count_ = capacity_ = initial_capacity`, `size_ = 0`. -/
def mk (c : Nat) : StripedState α :=
  ⟨emptyTable c, c, c, 0⟩

/-- `HashSetStriped::resize` with the value `old_capacity` that was read
from `capacity_` before the `ArrayLock` acquired every stripe lock:
if `capacity_ != old_capacity` someone else already resized and the state
is left untouched; otherwise `capacity_ *= 2` and the table is rebuilt. -/
def resizeFrom (hash : α → Nat) (old_capacity : Nat) (s : StripedState α) :
    StripedState α :=
  if s.capacity_ ≠ old_capacity then
    s
  else
    ⟨rehash hash (s.capacity_ * 2) s.table_, s.mutex_count_, s.capacity_ * 2, s.size_⟩

/-- `HashSetStriped::resize` as called: `old_capacity` is the current
`capacity_` (in a sequential execution nothing can intervene between the
read and the lock acquisition). -/
def resize (hash : α → Nat) (s : StripedState α) : StripedState α :=
  resizeFrom hash s.capacity_ s

/-- The part of `HashSetStriped::Add` after the resize check: under the
stripe lock `mutexes_[hash % mutex_count_]`, look up the bucket
`table_[hash % capacity_]`, return `false` if the element is present,
otherwise push it and `size_.fetch_add(1)`. -/
def addLocked (hash : α → Nat) (s1 : StripedState α) (elem : α) :
    StripedState α × Bool :=
  if elem ∈ bucketAt s1.table_ (hash elem % s1.capacity_) then
    (s1, false)
  else
    (⟨insertBucket s1.table_ (hash elem % s1.capacity_) elem, s1.mutex_count_,
      s1.capacity_, s1.size_ + 1⟩, true)

/-- `HashSetStriped::Add`: first, if `size_ > 4 * capacity_`, resize; then
run the locked insertion body on the resulting state. -/
def Add (hash : α → Nat) (s : StripedState α) (elem : α) : StripedState α × Bool :=
  addLocked hash (if s.size_ > 4 * s.capacity_ then resize hash s else s) elem

/-- `HashSetStriped::Remove`: under the stripe lock, erase the element from
`table_[hash % capacity_]` if present and `size_.fetch_sub(1)`. -/
def Remove (hash : α → Nat) (s : StripedState α) (elem : α) : StripedState α × Bool :=
  let h := hash elem
  if elem ∈ bucketAt s.table_ (h % s.capacity_) then
    (⟨s.table_.set (h % s.capacity_) ((bucketAt s.table_ (h % s.capacity_)).erase elem),
      s.mutex_count_, s.capacity_, s.size_ - 1⟩, true)
  else
    (s, false)

/-- `HashSetStriped::Contains`: membership test in `table_[hash % capacity_]`
under the stripe lock. -/
def Contains (hash : α → Nat) (s : StripedState α) (elem : α) : Bool :=
  decide (elem ∈ bucketAt s.table_ (hash elem % s.capacity_))

/-- `HashSetStriped::Size`. -/
def Size (s : StripedState α) : Nat :=
  s.size_

end HashSetStriped

namespace HashSetRefinable

/-- `HashSetRefinable(initial_capacity)`: table of `initial_capacity` empty
buckets and one bucket mutex per bucket (`mutex_count_ = capacity_`). -/
def mk (c : Nat) : RefinableState α :=
  ⟨emptyTable c, c, c, 0⟩

/-- `HashSetRefinable::resize` with the `old_capacity` read before the
exclusive `resize_mutex_` acquisition: if `capacity_` changed meanwhile,
return unchanged; otherwise double `capacity_`, rebuild the table, and push
fresh bucket mutexes until `mutexes_.size() == capacity_` (so the new count
is `max mutex_count_ (capacity_ * 2)`). -/
def resizeFrom (hash : α → Nat) (old_capacity : Nat) (s : RefinableState α) :
    RefinableState α :=
  if s.capacity_ ≠ old_capacity then
    s
  else
    ⟨rehash hash (s.capacity_ * 2) s.table_, max s.mutex_count_ (s.capacity_ * 2),
      s.capacity_ * 2, s.size_⟩

/-- `HashSetRefinable::resize` as called, with `old_capacity` the current
`capacity_`. -/
def resize (hash : α → Nat) (s : RefinableState α) : RefinableState α :=
  resizeFrom hash s.capacity_ s

/-- The part of `HashSetRefinable::Add` after the resize check: under the
shared `resize_mutex_` and the bucket lock `mutexes_[hash % capacity_]`,
insert into `table_[hash % capacity_]` unless present. -/
def addLocked (hash : α → Nat) (s1 : RefinableState α) (elem : α) :
    RefinableState α × Bool :=
  if elem ∈ bucketAt s1.table_ (hash elem % s1.capacity_) then
    (s1, false)
  else
    (⟨insertBucket s1.table_ (hash elem % s1.capacity_) elem, s1.mutex_count_,
      s1.capacity_, s1.size_ + 1⟩, true)

/-- `HashSetRefinable::Add`: if `size_ > 4 * capacity_` resize; then run the
locked insertion body on the resulting state. -/
def Add (hash : α → Nat) (s : RefinableState α) (elem : α) : RefinableState α × Bool :=
  addLocked hash (if s.size_ > 4 * s.capacity_ then resize hash s else s) elem

/-- `HashSetRefinable::Remove`: the code first reduces
`hash = std::hash<T>()(elem) % capacity_` and then indexes both the lock
and bucket arrays by `hash % capacity_` (a second, idempotent reduction),
erasing the element if present. -/
def Remove (hash : α → Nat) (s : RefinableState α) (elem : α) : RefinableState α × Bool :=
  let h := hash elem % s.capacity_
  if elem ∈ bucketAt s.table_ (h % s.capacity_) then
    (⟨s.table_.set (h % s.capacity_) ((bucketAt s.table_ (h % s.capacity_)).erase elem),
      s.mutex_count_, s.capacity_, s.size_ - 1⟩, true)
  else
    (s, false)

/-- `HashSetRefinable::Contains`: membership test in
`table_[hash % capacity_]` under the shared lock and the bucket lock. -/
def Contains (hash : α → Nat) (s : RefinableState α) (elem : α) : Bool :=
  decide (elem ∈ bucketAt s.table_ (hash elem % s.capacity_))

/-- `HashSetRefinable::Size`. -/
def Size (s : RefinableState α) : Nat :=
  s.size_

end HashSetRefinable

/-! ## The fallible layer

C++ `%` is undefined (in practice a fatal trap) when the divisor is `0`.
`mod?` makes this partiality explicit; the `*Checked` operations below
re-trace each operation, threading every modulus the code evaluates, in
evaluation order, through `mod?`.  On any state with positive `capacity_`
(and, for the striped variant, positive `mutex_count_`) they reduce to
`some` of the total operations above. -/

/-- C++ `a % b`: defined only for `b ≠ 0`. -/
def mod? (a b : Nat) : Option Nat :=
  if b = 0 then none else some (a % b)

/-- Fallible `new_table[hash(e) % newCap].push_back(e)`. -/
def insertBucketChecked (hash : α → Nat) (newCap : Nat) (t : List (List α))
    (e : α) : Option (List (List α)) :=
  (mod? (hash e) newCap).map fun i => t.set i (bucketAt t i ++ [e])

/-- Fallible rehash loop: each resident element is rehomed via a
`% newCap` that traps when `newCap = 0`. -/
def rehashChecked (hash : α → Nat) (newCap : Nat) (t : List (List α)) :
    Option (List (List α)) :=
  t.foldl
    (fun acc bucket =>
      bucket.foldl (fun acc2 e => acc2.bind fun tt => insertBucketChecked hash newCap tt e) acc)
    (some (emptyTable newCap))

namespace HashSetSequential

/-- Fallible `HashSetSequential::Add`: the bucket index `hash(elem) % capacity_`
is the first modulus evaluated; the rehash moduli divide by `capacity_ * 2`. -/
def AddChecked (hash : α → Nat) (s : SeqState α) (elem : α) :
    Option (SeqState α × Bool) :=
  (mod? (hash elem) s.capacity_).bind fun h =>
    if elem ∈ bucketAt s.table_ h then
      some (s, false)
    else
      let table1 := insertBucket s.table_ h elem
      let size1 := s.size_ + 1
      if size1 > 4 * s.capacity_ then
        (rehashChecked hash (s.capacity_ * 2) table1).map fun t2 =>
          (⟨t2, s.capacity_ * 2, size1⟩, true)
      else
        some (⟨table1, s.capacity_, size1⟩, true)

/-- Fallible `HashSetSequential::Remove`: the single modulus is the bucket
index computation. -/
def RemoveChecked (hash : α → Nat) (s : SeqState α) (elem : α) :
    Option (SeqState α × Bool) :=
  (mod? (hash elem) s.capacity_).map fun h =>
    if elem ∈ bucketAt s.table_ h then
      (⟨s.table_.set h ((bucketAt s.table_ h).erase elem), s.capacity_, s.size_ - 1⟩, true)
    else
      (s, false)

/-- Fallible `HashSetSequential::Contains`. -/
def ContainsChecked (hash : α → Nat) (s : SeqState α) (elem : α) : Option Bool :=
  (mod? (hash elem) s.capacity_).map fun h =>
    decide (elem ∈ bucketAt s.table_ h)

end HashSetSequential

namespace HashSetCoarseGrained

/-- Fallible `HashSetCoarseGrained::Add` (same body as sequential). -/
def AddChecked (hash : α → Nat) (s : SeqState α) (elem : α) :
    Option (SeqState α × Bool) :=
  HashSetSequential.AddChecked hash s elem

/-- Fallible `HashSetCoarseGrained::Remove` (same body as sequential). -/
def RemoveChecked (hash : α → Nat) (s : SeqState α) (elem : α) :
    Option (SeqState α × Bool) :=
  HashSetSequential.RemoveChecked hash s elem

/-- Fallible `HashSetCoarseGrained::Contains` (same body as sequential). -/
def ContainsChecked (hash : α → Nat) (s : SeqState α) (elem : α) : Option Bool :=
  HashSetSequential.ContainsChecked hash s elem

end HashSetCoarseGrained

namespace HashSetStriped

/-- Fallible `HashSetStriped::resize`. -/
def resizeChecked (hash : α → Nat) (s : StripedState α) :
    Option (StripedState α) :=
  if s.capacity_ ≠ s.capacity_ then
    some s
  else
    (rehashChecked hash (s.capacity_ * 2) s.table_).map fun t2 =>
      ⟨t2, s.mutex_count_, s.capacity_ * 2, s.size_⟩

/-- Fallible `HashSetStriped::Add`: after the (possibly trapping) resize,
the stripe-lock index `hash % mutex_count_` is evaluated, then the bucket
index `hash % capacity_`. -/
def AddChecked (hash : α → Nat) (s : StripedState α) (elem : α) :
    Option (StripedState α × Bool) :=
  (if s.size_ > 4 * s.capacity_ then resizeChecked hash s else some s).bind fun s1 =>
    (mod? (hash elem) s1.mutex_count_).bind fun _ =>
      (mod? (hash elem) s1.capacity_).map fun i =>
        if elem ∈ bucketAt s1.table_ i then
          (s1, false)
        else
          (⟨insertBucket s1.table_ i elem, s1.mutex_count_, s1.capacity_, s1.size_ + 1⟩, true)

/-- Fallible `HashSetStriped::Remove`: stripe-lock index, then bucket index. -/
def RemoveChecked (hash : α → Nat) (s : StripedState α) (elem : α) :
    Option (StripedState α × Bool) :=
  (mod? (hash elem) s.mutex_count_).bind fun _ =>
    (mod? (hash elem) s.capacity_).map fun i =>
      if elem ∈ bucketAt s.table_ i then
        (⟨s.table_.set i ((bucketAt s.table_ i).erase elem),
          s.mutex_count_, s.capacity_, s.size_ - 1⟩, true)
      else
        (s, false)

/-- Fallible `HashSetStriped::Contains`: stripe-lock index, then bucket index. -/
def ContainsChecked (hash : α → Nat) (s : StripedState α) (elem : α) : Option Bool :=
  (mod? (hash elem) s.mutex_count_).bind fun _ =>
    (mod? (hash elem) s.capacity_).map fun i =>
      decide (elem ∈ bucketAt s.table_ i)

end HashSetStriped

namespace HashSetRefinable

/-- Fallible `HashSetRefinable::resize`. -/
def resizeChecked (hash : α → Nat) (s : RefinableState α) :
    Option (RefinableState α) :=
  if s.capacity_ ≠ s.capacity_ then
    some s
  else
    (rehashChecked hash (s.capacity_ * 2) s.table_).map fun t2 =>
      ⟨t2, max s.mutex_count_ (s.capacity_ * 2), s.capacity_ * 2, s.size_⟩

/-- Fallible `HashSetRefinable::Add`: after the resize check, the bucket-lock
index `hash % capacity_` is evaluated, then the bucket index
`hash % capacity_`. -/
def AddChecked (hash : α → Nat) (s : RefinableState α) (elem : α) :
    Option (RefinableState α × Bool) :=
  (if s.size_ > 4 * s.capacity_ then resizeChecked hash s else some s).bind fun s1 =>
    (mod? (hash elem) s1.capacity_).bind fun _ =>
      (mod? (hash elem) s1.capacity_).map fun i =>
        if elem ∈ bucketAt s1.table_ i then
          (s1, false)
        else
          (⟨insertBucket s1.table_ i elem, s1.mutex_count_, s1.capacity_, s1.size_ + 1⟩, true)

/-- Fallible `HashSetRefinable::Remove`: the code's first modulus is
`hash = std::hash<T>()(elem) % capacity_`, followed by the lock and bucket
indices `hash % capacity_`. -/
def RemoveChecked (hash : α → Nat) (s : RefinableState α) (elem : α) :
    Option (RefinableState α × Bool) :=
  (mod? (hash elem) s.capacity_).bind fun h =>
    (mod? h s.capacity_).map fun i =>
      if elem ∈ bucketAt s.table_ i then
        (⟨s.table_.set i ((bucketAt s.table_ i).erase elem),
          s.mutex_count_, s.capacity_, s.size_ - 1⟩, true)
      else
        (s, false)

/-- Fallible `HashSetRefinable::Contains`: bucket-lock index, then bucket
index, both `hash % capacity_`. -/
def ContainsChecked (hash : α → Nat) (s : RefinableState α) (elem : α) : Option Bool :=
  (mod? (hash elem) s.capacity_).bind fun _ =>
    (mod? (hash elem) s.capacity_).map fun i =>
      decide (elem ∈ bucketAt s.table_ i)

end HashSetRefinable

/-! ## Operation sequences -/

/-- A mutating client operation (`Contains` and `Size` are pure and leave
the state unchanged by definition, so sequences need only `Add`/`Remove`). -/
inductive Op (α : Type) where
  | add (e : α)
  | remove (e : α)
deriving DecidableEq

/-- Replay a sequence of operations against any implementation, collecting
each operation's boolean return value. -/
def run {σ : Type} (stepAdd stepRemove : σ → α → σ × Bool) :
    List (Op α) → σ → σ × List Bool
  | [], s => (s, [])
  | Op.add e :: ops, s =>
    let p := stepAdd s e
    let q := run stepAdd stepRemove ops p.1
    (q.1, p.2 :: q.2)
  | Op.remove e :: ops, s =>
    let p := stepRemove s e
    let q := run stepAdd stepRemove ops p.1
    (q.1, p.2 :: q.2)

/-- Sequentially insert a list of elements, keeping only the final state. -/
def addAll {σ : Type} (stepAdd : σ → α → σ × Bool) (l : List α) (s : σ) : σ :=
  l.foldl (fun t e => (stepAdd t e).1) s

/-- Replay against `HashSetSequential`. -/
def runSeq (hash : α → Nat) (ops : List (Op α)) (s : SeqState α) :
    SeqState α × List Bool :=
  run (HashSetSequential.Add hash) (HashSetSequential.Remove hash) ops s

/-- Replay against `HashSetCoarseGrained`. -/
def runCoarse (hash : α → Nat) (ops : List (Op α)) (s : SeqState α) :
    SeqState α × List Bool :=
  run (HashSetCoarseGrained.Add hash) (HashSetCoarseGrained.Remove hash) ops s

/-- Replay against `HashSetStriped`. -/
def runStriped (hash : α → Nat) (ops : List (Op α)) (s : StripedState α) :
    StripedState α × List Bool :=
  run (HashSetStriped.Add hash) (HashSetStriped.Remove hash) ops s

/-- Replay against `HashSetRefinable`. -/
def runRefinable (hash : α → Nat) (ops : List (Op α)) (s : RefinableState α) :
    RefinableState α × List Bool :=
  run (HashSetRefinable.Add hash) (HashSetRefinable.Remove hash) ops s

/-! ## Invariants and abstraction -/

/-- Residency of `x`, read off the table the way `Contains` does: `x` is in
the bucket selected by `hash x % cap`. -/
def memTable (hash : α → Nat) (t : List (List α)) (cap : Nat) (x : α) : Prop :=
  x ∈ bucketAt t (hash x % cap)

/-- The table invariants of the spec's data model: the bucket array has
`cap` buckets with `cap` positive, every resident element lies (only) in
the bucket named by its hash modulo the current capacity, buckets hold no
duplicates, and the size field counts the entries of the table. -/
structure TableInv (hash : α → Nat) (t : List (List α)) (cap n : Nat) : Prop where
  len_eq : t.length = cap
  cap_pos : 0 < cap
  correct_bucket : ∀ i : Nat, ∀ e ∈ bucketAt t i, hash e % cap = i
  bucket_nodup : ∀ i : Nat, (bucketAt t i).Nodup
  size_eq : n = tableSize t

/-- `TableInv` for a sequential / coarse-grained state. -/
def SeqInv (hash : α → Nat) (s : SeqState α) : Prop :=
  TableInv hash s.table_ s.capacity_ s.size_

/-- Residency in a sequential / coarse-grained state. -/
def SeqMem (hash : α → Nat) (s : SeqState α) (x : α) : Prop :=
  memTable hash s.table_ s.capacity_ x

/-- `TableInv` for a striped state. -/
def StripedInv (hash : α → Nat) (s : StripedState α) : Prop :=
  TableInv hash s.table_ s.capacity_ s.size_

/-- Residency in a striped state. -/
def StripedMem (hash : α → Nat) (s : StripedState α) (x : α) : Prop :=
  memTable hash s.table_ s.capacity_ x

/-- `TableInv` for a refinable state. -/
def RefinableInv (hash : α → Nat) (s : RefinableState α) : Prop :=
  TableInv hash s.table_ s.capacity_ s.size_

/-- Residency in a refinable state. -/
def RefinableMem (hash : α → Nat) (s : RefinableState α) (x : α) : Prop :=
  memTable hash s.table_ s.capacity_ x

/-- The rehash loop with its two nested `for`s flattened into a single left
fold over the residents in table order (used to reason about `rehash`). -/
def insertList (hash : α → Nat) (c : Nat) (l : List α) (acc : List (List α)) :
    List (List α) :=
  l.foldl (fun acc2 e => insertBucket acc2 (hash e % c) e) acc

/-! ## Basic bucket and table lemmas -/

theorem bucketAt_eq_getElem (t : List (List α)) (i : Nat) (h : i < t.length) :
    bucketAt t i = t[i] := by
  simp [bucketAt, List.getD_eq_getElem?_getD, List.getElem?_eq_getElem h]

theorem bucketAt_of_le (t : List (List α)) (i : Nat) (h : t.length ≤ i) :
    bucketAt t i = [] := by
  simp [bucketAt, List.getD_eq_getElem?_getD, List.getElem?_eq_none h]

theorem bucketAt_emptyTable (c i : Nat) : bucketAt (emptyTable c : List (List α)) i = [] := by
  rcases lt_or_le i c with h | h
  · rw [bucketAt_eq_getElem]
    · simp [emptyTable]
    · simpa [emptyTable] using h
  · exact bucketAt_of_le _ _ (by simpa [emptyTable] using h)

theorem bucketAt_set_self (t : List (List α)) (i : Nat) (b : List α)
    (h : i < t.length) : bucketAt (t.set i b) i = b := by
  simp [bucketAt, List.getD_eq_getElem?_getD, List.getElem?_set, h]

theorem bucketAt_set_ne (t : List (List α)) (i j : Nat) (b : List α)
    (h : i ≠ j) : bucketAt (t.set i b) j = bucketAt t j := by
  simp [bucketAt, List.getD_eq_getElem?_getD, List.getElem?_set, h]

theorem length_insertBucket (t : List (List α)) (i : Nat) (e : α) :
    (insertBucket t i e).length = t.length := by
  simp [insertBucket]

theorem bucketAt_insertBucket_self (t : List (List α)) (i : Nat) (e : α)
    (h : i < t.length) :
    bucketAt (insertBucket t i e) i = bucketAt t i ++ [e] :=
  bucketAt_set_self _ _ _ h

theorem bucketAt_insertBucket_ne (t : List (List α)) (i j : Nat) (e : α)
    (h : i ≠ j) : bucketAt (insertBucket t i e) j = bucketAt t j :=
  bucketAt_set_ne _ _ _ _ h

theorem tableSize_nil : tableSize ([] : List (List α)) = 0 := rfl

theorem tableSize_cons (b : List α) (t : List (List α)) :
    tableSize (b :: t) = b.length + tableSize t := by
  simp [tableSize]

theorem tableSize_emptyTable (c : Nat) : tableSize (emptyTable c : List (List α)) = 0 := by
  induction c with
  | zero => rfl
  | succ n ih =>
    simpa [emptyTable, List.replicate_succ, tableSize_cons] using ih

theorem tableSize_set (t : List (List α)) (i : Nat) (b : List α)
    (h : i < t.length) :
    tableSize (t.set i b) + (bucketAt t i).length = tableSize t + b.length := by
  induction t generalizing i with
  | nil => simp at h
  | cons x xs ih =>
    cases i with
    | zero =>
      have hb : bucketAt (x :: xs) 0 = x := bucketAt_eq_getElem _ _ h
      simp [hb, tableSize_cons]
      omega
    | succ n =>
      have hn : n < xs.length := by simpa using h
      have hb : bucketAt (x :: xs) (n + 1) = bucketAt xs n := by
        rw [bucketAt_eq_getElem _ _ h, bucketAt_eq_getElem _ _ hn]
        simp
      have := ih n hn
      simp [hb, tableSize_cons, List.set]
      omega

theorem tableSize_insertBucket (t : List (List α)) (i : Nat) (e : α)
    (h : i < t.length) :
    tableSize (insertBucket t i e) = tableSize t + 1 := by
  have := tableSize_set t i (bucketAt t i ++ [e]) h
  simp only [insertBucket]
  simp at this
  omega

theorem tableSize_erase (t : List (List α)) (i : Nat) (e : α)
    (h : i < t.length) (he : e ∈ bucketAt t i) :
    tableSize (t.set i ((bucketAt t i).erase e)) + 1 = tableSize t := by
  have h1 := tableSize_set t i ((bucketAt t i).erase e) h
  have h2 : ((bucketAt t i).erase e).length = (bucketAt t i).length - 1 :=
    List.length_erase_of_mem he
  have h3 : 1 ≤ (bucketAt t i).length := List.length_pos_of_mem he
  omega

theorem tableSize_eq_length_flatten (t : List (List α)) :
    tableSize t = t.flatten.length := by
  induction t with
  | nil => rfl
  | cons b t ih => simp [tableSize_cons, ih]

/-! ## Invariant-level lemmas -/

theorem TableInv.mem_flatten_iff {hash : α → Nat} {t : List (List α)}
    {cap n : Nat} (hInv : TableInv hash t cap n) (x : α) :
    x ∈ t.flatten ↔ memTable hash t cap x := by
  constructor
  · intro hx
    rcases List.mem_flatten.1 hx with ⟨b, hb, hxb⟩
    rcases List.mem_iff_getElem.1 hb with ⟨j, hj, rfl⟩
    have hbj : bucketAt t j = t[j] := bucketAt_eq_getElem _ _ hj
    have hxj : x ∈ bucketAt t j := hbj ▸ hxb
    have := hInv.correct_bucket j x hxj
    rw [memTable, this]
    exact hxj
  · intro hx
    have hlt : hash x % cap < t.length := by
      rw [hInv.len_eq]
      exact Nat.mod_lt _ hInv.cap_pos
    rw [memTable, bucketAt_eq_getElem _ _ hlt] at hx
    exact List.mem_flatten.2 ⟨_, List.getElem_mem hlt, hx⟩

theorem TableInv.flatten_nodup {hash : α → Nat} {t : List (List α)}
    {cap n : Nat} (hInv : TableInv hash t cap n) : t.flatten.Nodup := by
  rw [List.nodup_flatten]
  constructor
  · intro b hb
    rcases List.mem_iff_getElem.1 hb with ⟨j, hj, rfl⟩
    rw [← bucketAt_eq_getElem _ _ hj]
    exact hInv.bucket_nodup j
  · rw [List.pairwise_iff_get]
    intro i j hij
    intro x hxi hxj
    have hi : (t.get i : List α) = bucketAt t i.1 := by
      rw [bucketAt_eq_getElem _ _ i.2]
      simp
    have hj' : (t.get j : List α) = bucketAt t j.1 := by
      rw [bucketAt_eq_getElem _ _ j.2]
      simp
    have h1 := hInv.correct_bucket i.1 x (hi ▸ hxi)
    have h2 := hInv.correct_bucket j.1 x (hj' ▸ hxj)
    have heq : i.1 = j.1 := h1 ▸ h2
    have hlt : i.1 < j.1 := hij
    omega

theorem length_insertList (hash : α → Nat) (c : Nat) (l : List α)
    (acc : List (List α)) : (insertList hash c l acc).length = acc.length := by
  induction l generalizing acc with
  | nil => rfl
  | cons e l ih => simp [insertList, List.foldl_cons, ih, length_insertBucket] at ih ⊢; rw [ih, length_insertBucket]

theorem bucketAt_insertList (hash : α → Nat) (c : Nat) (hc : 0 < c)
    (l : List α) (acc : List (List α)) (hlen : acc.length = c) (i : Nat) :
    bucketAt (insertList hash c l acc) i =
      bucketAt acc i ++ l.filter (fun e => hash e % c == i) := by
  induction l generalizing acc with
  | nil => simp [insertList]
  | cons e l ih =>
    have hj : hash e % c < acc.length := by rw [hlen]; exact Nat.mod_lt _ hc
    have hstep : (insertBucket acc (hash e % c) e).length = c := by
      rw [length_insertBucket]; exact hlen
    have := ih (insertBucket acc (hash e % c) e) hstep
    rw [insertList, List.foldl_cons, ← insertList, this]
    by_cases hie : hash e % c = i
    · rw [hie] at hj ⊢
      rw [bucketAt_insertBucket_self _ _ _ hj]
      simp [List.filter_cons, hie]
    · rw [bucketAt_insertBucket_ne _ _ _ _ hie]
      simp [List.filter_cons, hie]

theorem tableSize_insertList (hash : α → Nat) (c : Nat) (hc : 0 < c)
    (l : List α) (acc : List (List α)) (hlen : acc.length = c) :
    tableSize (insertList hash c l acc) = tableSize acc + l.length := by
  induction l generalizing acc with
  | nil => simp [insertList]
  | cons e l ih =>
    have hj : hash e % c < acc.length := by rw [hlen]; exact Nat.mod_lt _ hc
    have hstep : (insertBucket acc (hash e % c) e).length = c := by
      rw [length_insertBucket]; exact hlen
    have := ih (insertBucket acc (hash e % c) e) hstep
    rw [insertList, List.foldl_cons, ← insertList, this,
      tableSize_insertBucket _ _ _ hj]
    simp
    omega

theorem rehash_eq_insertList (hash : α → Nat) (c : Nat) (t : List (List α)) :
    rehash hash c t = insertList hash c t.flatten (emptyTable c) :=
  (List.foldl_flatten _ _ _).symm

theorem length_rehash (hash : α → Nat) (c : Nat) (t : List (List α)) :
    (rehash hash c t).length = c := by
  rw [rehash_eq_insertList, length_insertList]
  simp [emptyTable]

theorem bucketAt_rehash (hash : α → Nat) (c : Nat) (hc : 0 < c)
    (t : List (List α)) (i : Nat) :
    bucketAt (rehash hash c t) i = t.flatten.filter (fun e => hash e % c == i) := by
  rw [rehash_eq_insertList,
    bucketAt_insertList hash c hc _ _ (by simp [emptyTable]) i,
    bucketAt_emptyTable]
  simp

theorem tableSize_rehash (hash : α → Nat) (c : Nat) (hc : 0 < c)
    (t : List (List α)) : tableSize (rehash hash c t) = t.flatten.length := by
  rw [rehash_eq_insertList,
    tableSize_insertList hash c hc _ _ (by simp [emptyTable]),
    tableSize_emptyTable]
  simp

theorem TableInv.rehash {hash : α → Nat} {t : List (List α)} {cap n : Nat}
    (hInv : TableInv hash t cap n) (c : Nat) (hc : 0 < c) :
    TableInv hash (ConcurrentHashset.rehash hash c t) c n := by
  refine ⟨length_rehash hash c t, hc, ?_, ?_, ?_⟩
  · intro i e he
    rw [bucketAt_rehash hash c hc] at he
    have := (List.mem_filter.1 he).2
    simpa using this
  · intro i
    rw [bucketAt_rehash hash c hc]
    exact hInv.flatten_nodup.filter _
  · rw [tableSize_rehash hash c hc, hInv.size_eq, tableSize_eq_length_flatten]

theorem memTable_rehash {hash : α → Nat} {t : List (List α)} {cap n : Nat}
    (hInv : TableInv hash t cap n) (c : Nat) (hc : 0 < c) (x : α) :
    memTable hash (rehash hash c t) c x ↔ memTable hash t cap x := by
  rw [memTable, bucketAt_rehash hash c hc, List.mem_filter]
  simp [hInv.mem_flatten_iff]

theorem TableInv.insert {hash : α → Nat} {t : List (List α)} {cap n : Nat}
    (hInv : TableInv hash t cap n) (e : α)
    (hnot : e ∉ bucketAt t (hash e % cap)) :
    TableInv hash (insertBucket t (hash e % cap) e) cap (n + 1) := by
  have hlt : hash e % cap < t.length := by
    rw [hInv.len_eq]; exact Nat.mod_lt _ hInv.cap_pos
  refine ⟨by rw [length_insertBucket, hInv.len_eq], hInv.cap_pos, ?_, ?_, ?_⟩
  · intro i x hx
    by_cases hi : hash e % cap = i
    · subst hi
      rw [bucketAt_insertBucket_self _ _ _ hlt, List.mem_append] at hx
      rcases hx with hx | hx
      · exact hInv.correct_bucket _ x hx
      · simp at hx
        subst hx
        rfl
    · rw [bucketAt_insertBucket_ne _ _ _ _ hi] at hx
      exact hInv.correct_bucket i x hx
  · intro i
    by_cases hi : hash e % cap = i
    · subst hi
      rw [bucketAt_insertBucket_self _ _ _ hlt]
      simp [List.nodup_append, hInv.bucket_nodup, hnot]
    · rw [bucketAt_insertBucket_ne _ _ _ _ hi]
      exact hInv.bucket_nodup i
  · rw [tableSize_insertBucket _ _ _ hlt, hInv.size_eq]

theorem memTable_insertBucket {hash : α → Nat} {t : List (List α)} {cap n : Nat}
    (hInv : TableInv hash t cap n) (e x : α) :
    memTable hash (insertBucket t (hash e % cap) e) cap x ↔
      memTable hash t cap x ∨ x = e := by
  have hlt : hash e % cap < t.length := by
    rw [hInv.len_eq]; exact Nat.mod_lt _ hInv.cap_pos
  by_cases hi : hash e % cap = hash x % cap
  · rw [memTable, memTable, ← hi, bucketAt_insertBucket_self _ _ _ hlt]
    simp
  · rw [memTable, memTable, bucketAt_insertBucket_ne _ _ _ _ hi]
    constructor
    · exact Or.inl
    · rintro (hx | rfl)
      · exact hx
      · exact absurd rfl hi

theorem TableInv.eraseElem {hash : α → Nat} {t : List (List α)} {cap n : Nat}
    (hInv : TableInv hash t cap n) (e : α)
    (he : e ∈ bucketAt t (hash e % cap)) :
    TableInv hash (t.set (hash e % cap) ((bucketAt t (hash e % cap)).erase e))
      cap (n - 1) := by
  have hlt : hash e % cap < t.length := by
    rw [hInv.len_eq]; exact Nat.mod_lt _ hInv.cap_pos
  refine ⟨by rw [List.length_set, hInv.len_eq], hInv.cap_pos, ?_, ?_, ?_⟩
  · intro i x hx
    by_cases hi : hash e % cap = i
    · subst hi
      rw [bucketAt_set_self _ _ _ hlt] at hx
      exact hInv.correct_bucket _ x ((List.erase_sublist e _).subset hx)
    · rw [bucketAt_set_ne _ _ _ _ hi] at hx
      exact hInv.correct_bucket i x hx
  · intro i
    by_cases hi : hash e % cap = i
    · subst hi
      rw [bucketAt_set_self _ _ _ hlt]
      exact (hInv.bucket_nodup _).erase e
    · rw [bucketAt_set_ne _ _ _ _ hi]
      exact hInv.bucket_nodup i
  · have := tableSize_erase t (hash e % cap) e hlt he
    rw [hInv.size_eq]
    omega

theorem memTable_eraseElem {hash : α → Nat} {t : List (List α)} {cap n : Nat}
    (hInv : TableInv hash t cap n) (e x : α) :
    memTable hash (t.set (hash e % cap) ((bucketAt t (hash e % cap)).erase e))
        cap x ↔ memTable hash t cap x ∧ x ≠ e := by
  have hlt : hash e % cap < t.length := by
    rw [hInv.len_eq]; exact Nat.mod_lt _ hInv.cap_pos
  by_cases hi : hash e % cap = hash x % cap
  · rw [memTable, memTable, ← hi, bucketAt_set_self _ _ _ hlt,
      (hInv.bucket_nodup _).mem_erase_iff]
    tauto
  · rw [memTable, memTable, bucketAt_set_ne _ _ _ _ hi]
    have hxe : x ≠ e := fun hxe => hi (hxe ▸ rfl)
    tauto

/-! ## Sequential / coarse-grained operation lemmas -/

theorem seq_add_ret (hash : α → Nat) (s : SeqState α) (e : α) :
    (HashSetSequential.Add hash s e).2 = !(HashSetSequential.Contains hash s e) := by
  rw [HashSetSequential.Add, HashSetSequential.Contains]
  by_cases h : e ∈ bucketAt s.table_ (hash e % s.capacity_)
  · simp [h]
  · simp [h, apply_ite Prod.snd]

theorem seq_add_size (hash : α → Nat) (s : SeqState α) (e : α) :
    (HashSetSequential.Add hash s e).1.size_ =
      if (HashSetSequential.Add hash s e).2 then s.size_ + 1 else s.size_ := by
  rw [HashSetSequential.Add]
  by_cases h : e ∈ bucketAt s.table_ (hash e % s.capacity_)
  · simp [h]
  · by_cases h2 : s.size_ + 1 > 4 * s.capacity_
    · simp [h, h2]
    · simp [h, h2]

theorem seq_add_cap (hash : α → Nat) (s : SeqState α) (e : α) :
    (HashSetSequential.Add hash s e).1.capacity_ =
      if (HashSetSequential.Add hash s e).2 = true ∧ s.size_ + 1 > 4 * s.capacity_
      then s.capacity_ * 2 else s.capacity_ := by
  rw [HashSetSequential.Add]
  by_cases h : e ∈ bucketAt s.table_ (hash e % s.capacity_)
  · simp [h]
  · by_cases h2 : s.size_ + 1 > 4 * s.capacity_
    · simp [h, h2]
    · simp [h, h2]

theorem seq_add_inv (hash : α → Nat) {s : SeqState α} (hInv : SeqInv hash s)
    (e : α) : SeqInv hash (HashSetSequential.Add hash s e).1 := by
  rw [HashSetSequential.Add]
  by_cases h : e ∈ bucketAt s.table_ (hash e % s.capacity_)
  · simpa [h] using hInv
  · have hIns := TableInv.insert hInv e h
    by_cases h2 : s.size_ + 1 > 4 * s.capacity_
    · simp only [h, if_false, h2, if_true, gt_iff_lt, if_pos]
      exact hIns.rehash _ (by have := hInv.cap_pos; omega)
    · simp only [h, if_false, h2, gt_iff_lt]
      simpa [SeqInv, h2] using hIns

theorem seq_add_mem (hash : α → Nat) {s : SeqState α} (hInv : SeqInv hash s)
    (e x : α) :
    SeqMem hash (HashSetSequential.Add hash s e).1 x ↔ SeqMem hash s x ∨ x = e := by
  rw [HashSetSequential.Add]
  by_cases h : e ∈ bucketAt s.table_ (hash e % s.capacity_)
  · simp only [h, if_true]
    constructor
    · exact Or.inl
    · rintro (hx | rfl)
      · exact hx
      · exact h
  · have hIns := TableInv.insert hInv e h
    by_cases h2 : s.size_ + 1 > 4 * s.capacity_
    · simp only [h, if_false, h2, gt_iff_lt, if_pos, if_true]
      rw [SeqMem]
      rw [memTable_rehash hIns _ (by have := hInv.cap_pos; omega) x]
      exact memTable_insertBucket hInv e x
    · simp only [h, if_false, h2, gt_iff_lt]
      simpa [SeqMem, h2] using memTable_insertBucket hInv e x

theorem seq_remove_ret (hash : α → Nat) (s : SeqState α) (e : α) :
    (HashSetSequential.Remove hash s e).2 = HashSetSequential.Contains hash s e := by
  rw [HashSetSequential.Remove, HashSetSequential.Contains]
  by_cases h : e ∈ bucketAt s.table_ (hash e % s.capacity_)
  · simp [h]
  · simp [h]

theorem seq_remove_cap (hash : α → Nat) (s : SeqState α) (e : α) :
    (HashSetSequential.Remove hash s e).1.capacity_ = s.capacity_ := by
  rw [HashSetSequential.Remove]
  by_cases h : e ∈ bucketAt s.table_ (hash e % s.capacity_)
  · simp [h]
  · simp [h]

theorem seq_remove_size (hash : α → Nat) (s : SeqState α) (e : α) :
    (HashSetSequential.Remove hash s e).1.size_ =
      if (HashSetSequential.Remove hash s e).2 then s.size_ - 1 else s.size_ := by
  rw [HashSetSequential.Remove]
  by_cases h : e ∈ bucketAt s.table_ (hash e % s.capacity_)
  · simp [h]
  · simp [h]

theorem seq_remove_inv (hash : α → Nat) {s : SeqState α} (hInv : SeqInv hash s)
    (e : α) : SeqInv hash (HashSetSequential.Remove hash s e).1 := by
  rw [HashSetSequential.Remove]
  by_cases h : e ∈ bucketAt s.table_ (hash e % s.capacity_)
  · simpa [h] using TableInv.eraseElem hInv e h
  · simpa [h] using hInv

theorem seq_remove_mem (hash : α → Nat) {s : SeqState α} (hInv : SeqInv hash s)
    (e x : α) :
    SeqMem hash (HashSetSequential.Remove hash s e).1 x ↔
      SeqMem hash s x ∧ x ≠ e := by
  rw [HashSetSequential.Remove]
  by_cases h : e ∈ bucketAt s.table_ (hash e % s.capacity_)
  · simpa [h] using memTable_eraseElem hInv e x
  · simp only [h, if_false]
    constructor
    · intro hx
      refine ⟨hx, ?_⟩
      rintro rfl
      exact h hx
    · exact fun hx => hx.1

/-! ## Striped operation lemmas -/

theorem striped_resize_cap (hash : α → Nat) (s : StripedState α) :
    (HashSetStriped.resize hash s).capacity_ = s.capacity_ * 2 := by
  simp [HashSetStriped.resize, HashSetStriped.resizeFrom]

theorem striped_resize_size (hash : α → Nat) (s : StripedState α) :
    (HashSetStriped.resize hash s).size_ = s.size_ := by
  simp [HashSetStriped.resize, HashSetStriped.resizeFrom]

theorem striped_resize_mutex (hash : α → Nat) (s : StripedState α) :
    (HashSetStriped.resize hash s).mutex_count_ = s.mutex_count_ := by
  simp [HashSetStriped.resize, HashSetStriped.resizeFrom]

theorem striped_resize_inv (hash : α → Nat) {s : StripedState α}
    (hInv : StripedInv hash s) : StripedInv hash (HashSetStriped.resize hash s) := by
  rw [HashSetStriped.resize, HashSetStriped.resizeFrom]
  simp only [ne_eq, not_true_eq_false, if_false, ite_false]
  exact hInv.rehash _ (by have := hInv.cap_pos; omega)

theorem striped_resize_mem (hash : α → Nat) {s : StripedState α}
    (hInv : StripedInv hash s) (x : α) :
    StripedMem hash (HashSetStriped.resize hash s) x ↔ StripedMem hash s x := by
  rw [HashSetStriped.resize, HashSetStriped.resizeFrom]
  simp only [ne_eq, not_true_eq_false, if_false, ite_false]
  exact memTable_rehash hInv _ (by have := hInv.cap_pos; omega) x

theorem striped_addLocked_ret (hash : α → Nat) (s1 : StripedState α) (e : α) :
    (HashSetStriped.addLocked hash s1 e).2 =
      !decide (e ∈ bucketAt s1.table_ (hash e % s1.capacity_)) := by
  rw [HashSetStriped.addLocked]
  by_cases h : e ∈ bucketAt s1.table_ (hash e % s1.capacity_)
  · simp [h]
  · simp [h]

theorem striped_addLocked_cap (hash : α → Nat) (s1 : StripedState α) (e : α) :
    (HashSetStriped.addLocked hash s1 e).1.capacity_ = s1.capacity_ := by
  rw [HashSetStriped.addLocked]
  by_cases h : e ∈ bucketAt s1.table_ (hash e % s1.capacity_)
  · simp [h]
  · simp [h]

theorem striped_addLocked_mutex (hash : α → Nat) (s1 : StripedState α) (e : α) :
    (HashSetStriped.addLocked hash s1 e).1.mutex_count_ = s1.mutex_count_ := by
  rw [HashSetStriped.addLocked]
  by_cases h : e ∈ bucketAt s1.table_ (hash e % s1.capacity_)
  · simp [h]
  · simp [h]

theorem striped_addLocked_size (hash : α → Nat) (s1 : StripedState α) (e : α) :
    (HashSetStriped.addLocked hash s1 e).1.size_ =
      if (HashSetStriped.addLocked hash s1 e).2 then s1.size_ + 1 else s1.size_ := by
  rw [HashSetStriped.addLocked]
  by_cases h : e ∈ bucketAt s1.table_ (hash e % s1.capacity_)
  · simp [h]
  · simp [h]

theorem striped_addLocked_inv (hash : α → Nat) {s1 : StripedState α}
    (hInv1 : StripedInv hash s1) (e : α) :
    StripedInv hash (HashSetStriped.addLocked hash s1 e).1 := by
  rw [HashSetStriped.addLocked]
  by_cases h : e ∈ bucketAt s1.table_ (hash e % s1.capacity_)
  · simpa [h] using hInv1
  · simpa [h] using TableInv.insert hInv1 e h

theorem striped_addLocked_mem (hash : α → Nat) {s1 : StripedState α}
    (hInv1 : StripedInv hash s1) (e x : α) :
    StripedMem hash (HashSetStriped.addLocked hash s1 e).1 x ↔
      StripedMem hash s1 x ∨ x = e := by
  rw [HashSetStriped.addLocked]
  by_cases h : e ∈ bucketAt s1.table_ (hash e % s1.capacity_)
  · simp only [h, if_true]
    constructor
    · exact Or.inl
    · rintro (hx | rfl)
      · exact hx
      · exact h
  · simp only [h, if_false]
    exact memTable_insertBucket hInv1 e x

theorem striped_add_cap (hash : α → Nat) (s : StripedState α) (e : α) :
    (HashSetStriped.Add hash s e).1.capacity_ =
      if s.size_ > 4 * s.capacity_ then s.capacity_ * 2 else s.capacity_ := by
  rw [HashSetStriped.Add]
  by_cases hr : s.size_ > 4 * s.capacity_
  · simp only [hr, if_true, striped_addLocked_cap, striped_resize_cap]
  · simp only [hr, if_false, striped_addLocked_cap]

theorem striped_add_mutex (hash : α → Nat) (s : StripedState α) (e : α) :
    (HashSetStriped.Add hash s e).1.mutex_count_ = s.mutex_count_ := by
  rw [HashSetStriped.Add]
  by_cases hr : s.size_ > 4 * s.capacity_
  · simp only [hr, if_true, striped_addLocked_mutex, striped_resize_mutex]
  · simp only [hr, if_false, striped_addLocked_mutex]

theorem striped_add_size (hash : α → Nat) (s : StripedState α) (e : α) :
    (HashSetStriped.Add hash s e).1.size_ =
      if (HashSetStriped.Add hash s e).2 then s.size_ + 1 else s.size_ := by
  rw [HashSetStriped.Add]
  by_cases hr : s.size_ > 4 * s.capacity_
  · simp only [hr, if_true, striped_addLocked_size, striped_resize_size]
  · simp only [hr, if_false, striped_addLocked_size]

theorem striped_add_ret (hash : α → Nat) {s : StripedState α}
    (hInv : StripedInv hash s) (e : α) :
    (HashSetStriped.Add hash s e).2 = !(HashSetStriped.Contains hash s e) := by
  rw [HashSetStriped.Add, HashSetStriped.Contains]
  by_cases hr : s.size_ > 4 * s.capacity_
  · rw [if_pos hr, striped_addLocked_ret]
    have := striped_resize_mem hash hInv e
    rw [StripedMem, StripedMem, memTable, memTable] at this
    rw [decide_eq_decide.2 this]
  · rw [if_neg hr, striped_addLocked_ret]

theorem striped_add_inv (hash : α → Nat) {s : StripedState α}
    (hInv : StripedInv hash s) (e : α) :
    StripedInv hash (HashSetStriped.Add hash s e).1 := by
  rw [HashSetStriped.Add]
  by_cases hr : s.size_ > 4 * s.capacity_
  · rw [if_pos hr]
    exact striped_addLocked_inv hash (striped_resize_inv hash hInv) e
  · rw [if_neg hr]
    exact striped_addLocked_inv hash hInv e

theorem striped_add_mem (hash : α → Nat) {s : StripedState α}
    (hInv : StripedInv hash s) (e x : α) :
    StripedMem hash (HashSetStriped.Add hash s e).1 x ↔
      StripedMem hash s x ∨ x = e := by
  rw [HashSetStriped.Add]
  by_cases hr : s.size_ > 4 * s.capacity_
  · rw [if_pos hr, striped_addLocked_mem hash (striped_resize_inv hash hInv) e x,
      striped_resize_mem hash hInv x]
  · rw [if_neg hr, striped_addLocked_mem hash hInv e x]

theorem striped_remove_ret (hash : α → Nat) (s : StripedState α) (e : α) :
    (HashSetStriped.Remove hash s e).2 = HashSetStriped.Contains hash s e := by
  rw [HashSetStriped.Remove, HashSetStriped.Contains]
  by_cases h : e ∈ bucketAt s.table_ (hash e % s.capacity_)
  · simp [h]
  · simp [h]

theorem striped_remove_cap (hash : α → Nat) (s : StripedState α) (e : α) :
    (HashSetStriped.Remove hash s e).1.capacity_ = s.capacity_ := by
  rw [HashSetStriped.Remove]
  by_cases h : e ∈ bucketAt s.table_ (hash e % s.capacity_)
  · simp [h]
  · simp [h]

theorem striped_remove_mutex (hash : α → Nat) (s : StripedState α) (e : α) :
    (HashSetStriped.Remove hash s e).1.mutex_count_ = s.mutex_count_ := by
  rw [HashSetStriped.Remove]
  by_cases h : e ∈ bucketAt s.table_ (hash e % s.capacity_)
  · simp [h]
  · simp [h]

theorem striped_remove_inv (hash : α → Nat) {s : StripedState α}
    (hInv : StripedInv hash s) (e : α) :
    StripedInv hash (HashSetStriped.Remove hash s e).1 := by
  rw [HashSetStriped.Remove]
  by_cases h : e ∈ bucketAt s.table_ (hash e % s.capacity_)
  · simpa [h] using TableInv.eraseElem hInv e h
  · simpa [h] using hInv

theorem striped_remove_mem (hash : α → Nat) {s : StripedState α}
    (hInv : StripedInv hash s) (e x : α) :
    StripedMem hash (HashSetStriped.Remove hash s e).1 x ↔
      StripedMem hash s x ∧ x ≠ e := by
  rw [HashSetStriped.Remove]
  by_cases h : e ∈ bucketAt s.table_ (hash e % s.capacity_)
  · simpa [h] using memTable_eraseElem hInv e x
  · simp only [h, if_false]
    constructor
    · intro hx
      refine ⟨hx, ?_⟩
      rintro rfl
      exact h hx
    · exact fun hx => hx.1

/-! ## Refinable operation lemmas -/

theorem refinable_resize_cap (hash : α → Nat) (s : RefinableState α) :
    (HashSetRefinable.resize hash s).capacity_ = s.capacity_ * 2 := by
  simp [HashSetRefinable.resize, HashSetRefinable.resizeFrom]

theorem refinable_resize_size (hash : α → Nat) (s : RefinableState α) :
    (HashSetRefinable.resize hash s).size_ = s.size_ := by
  simp [HashSetRefinable.resize, HashSetRefinable.resizeFrom]

theorem refinable_resize_mutex (hash : α → Nat) (s : RefinableState α) :
    (HashSetRefinable.resize hash s).mutex_count_ =
      max s.mutex_count_ (s.capacity_ * 2) := by
  simp [HashSetRefinable.resize, HashSetRefinable.resizeFrom]

theorem refinable_resize_inv (hash : α → Nat) {s : RefinableState α}
    (hInv : RefinableInv hash s) :
    RefinableInv hash (HashSetRefinable.resize hash s) := by
  rw [HashSetRefinable.resize, HashSetRefinable.resizeFrom]
  simp only [ne_eq, not_true_eq_false, if_false, ite_false]
  exact hInv.rehash _ (by have := hInv.cap_pos; omega)

theorem refinable_resize_mem (hash : α → Nat) {s : RefinableState α}
    (hInv : RefinableInv hash s) (x : α) :
    RefinableMem hash (HashSetRefinable.resize hash s) x ↔ RefinableMem hash s x := by
  rw [HashSetRefinable.resize, HashSetRefinable.resizeFrom]
  simp only [ne_eq, not_true_eq_false, if_false, ite_false]
  exact memTable_rehash hInv _ (by have := hInv.cap_pos; omega) x

theorem refinable_addLocked_ret (hash : α → Nat) (s1 : RefinableState α) (e : α) :
    (HashSetRefinable.addLocked hash s1 e).2 =
      !decide (e ∈ bucketAt s1.table_ (hash e % s1.capacity_)) := by
  rw [HashSetRefinable.addLocked]
  by_cases h : e ∈ bucketAt s1.table_ (hash e % s1.capacity_)
  · simp [h]
  · simp [h]

theorem refinable_addLocked_cap (hash : α → Nat) (s1 : RefinableState α) (e : α) :
    (HashSetRefinable.addLocked hash s1 e).1.capacity_ = s1.capacity_ := by
  rw [HashSetRefinable.addLocked]
  by_cases h : e ∈ bucketAt s1.table_ (hash e % s1.capacity_)
  · simp [h]
  · simp [h]

theorem refinable_addLocked_mutex (hash : α → Nat) (s1 : RefinableState α) (e : α) :
    (HashSetRefinable.addLocked hash s1 e).1.mutex_count_ = s1.mutex_count_ := by
  rw [HashSetRefinable.addLocked]
  by_cases h : e ∈ bucketAt s1.table_ (hash e % s1.capacity_)
  · simp [h]
  · simp [h]

theorem refinable_addLocked_size (hash : α → Nat) (s1 : RefinableState α) (e : α) :
    (HashSetRefinable.addLocked hash s1 e).1.size_ =
      if (HashSetRefinable.addLocked hash s1 e).2 then s1.size_ + 1 else s1.size_ := by
  rw [HashSetRefinable.addLocked]
  by_cases h : e ∈ bucketAt s1.table_ (hash e % s1.capacity_)
  · simp [h]
  · simp [h]

theorem refinable_addLocked_inv (hash : α → Nat) {s1 : RefinableState α}
    (hInv1 : RefinableInv hash s1) (e : α) :
    RefinableInv hash (HashSetRefinable.addLocked hash s1 e).1 := by
  rw [HashSetRefinable.addLocked]
  by_cases h : e ∈ bucketAt s1.table_ (hash e % s1.capacity_)
  · simpa [h] using hInv1
  · simpa [h] using TableInv.insert hInv1 e h

theorem refinable_addLocked_mem (hash : α → Nat) {s1 : RefinableState α}
    (hInv1 : RefinableInv hash s1) (e x : α) :
    RefinableMem hash (HashSetRefinable.addLocked hash s1 e).1 x ↔
      RefinableMem hash s1 x ∨ x = e := by
  rw [HashSetRefinable.addLocked]
  by_cases h : e ∈ bucketAt s1.table_ (hash e % s1.capacity_)
  · simp only [h, if_true]
    constructor
    · exact Or.inl
    · rintro (hx | rfl)
      · exact hx
      · exact h
  · simp only [h, if_false]
    exact memTable_insertBucket hInv1 e x

theorem refinable_add_cap (hash : α → Nat) (s : RefinableState α) (e : α) :
    (HashSetRefinable.Add hash s e).1.capacity_ =
      if s.size_ > 4 * s.capacity_ then s.capacity_ * 2 else s.capacity_ := by
  rw [HashSetRefinable.Add]
  by_cases hr : s.size_ > 4 * s.capacity_
  · simp only [hr, if_true, refinable_addLocked_cap, refinable_resize_cap]
  · simp only [hr, if_false, refinable_addLocked_cap]

theorem refinable_add_size (hash : α → Nat) (s : RefinableState α) (e : α) :
    (HashSetRefinable.Add hash s e).1.size_ =
      if (HashSetRefinable.Add hash s e).2 then s.size_ + 1 else s.size_ := by
  rw [HashSetRefinable.Add]
  by_cases hr : s.size_ > 4 * s.capacity_
  · simp only [hr, if_true, refinable_addLocked_size, refinable_resize_size]
  · simp only [hr, if_false, refinable_addLocked_size]

theorem refinable_add_ret (hash : α → Nat) {s : RefinableState α}
    (hInv : RefinableInv hash s) (e : α) :
    (HashSetRefinable.Add hash s e).2 = !(HashSetRefinable.Contains hash s e) := by
  rw [HashSetRefinable.Add, HashSetRefinable.Contains]
  by_cases hr : s.size_ > 4 * s.capacity_
  · rw [if_pos hr, refinable_addLocked_ret]
    have := refinable_resize_mem hash hInv e
    rw [RefinableMem, RefinableMem, memTable, memTable] at this
    rw [decide_eq_decide.2 this]
  · rw [if_neg hr, refinable_addLocked_ret]

theorem refinable_add_inv (hash : α → Nat) {s : RefinableState α}
    (hInv : RefinableInv hash s) (e : α) :
    RefinableInv hash (HashSetRefinable.Add hash s e).1 := by
  rw [HashSetRefinable.Add]
  by_cases hr : s.size_ > 4 * s.capacity_
  · rw [if_pos hr]
    exact refinable_addLocked_inv hash (refinable_resize_inv hash hInv) e
  · rw [if_neg hr]
    exact refinable_addLocked_inv hash hInv e

theorem refinable_add_mem (hash : α → Nat) {s : RefinableState α}
    (hInv : RefinableInv hash s) (e x : α) :
    RefinableMem hash (HashSetRefinable.Add hash s e).1 x ↔
      RefinableMem hash s x ∨ x = e := by
  rw [HashSetRefinable.Add]
  by_cases hr : s.size_ > 4 * s.capacity_
  · rw [if_pos hr, refinable_addLocked_mem hash (refinable_resize_inv hash hInv) e x,
      refinable_resize_mem hash hInv x]
  · rw [if_neg hr, refinable_addLocked_mem hash hInv e x]

theorem refinable_remove_idx (hash : α → Nat) (s : RefinableState α) (e : α) :
    hash e % s.capacity_ % s.capacity_ = hash e % s.capacity_ :=
  Nat.mod_mod_of_dvd _ dvd_rfl

theorem refinable_remove_ret (hash : α → Nat) (s : RefinableState α) (e : α) :
    (HashSetRefinable.Remove hash s e).2 = HashSetRefinable.Contains hash s e := by
  rw [HashSetRefinable.Remove, HashSetRefinable.Contains]
  rw [refinable_remove_idx]
  by_cases h : e ∈ bucketAt s.table_ (hash e % s.capacity_)
  · simp [h]
  · simp [h]

theorem refinable_remove_cap (hash : α → Nat) (s : RefinableState α) (e : α) :
    (HashSetRefinable.Remove hash s e).1.capacity_ = s.capacity_ := by
  rw [HashSetRefinable.Remove]
  rw [refinable_remove_idx]
  by_cases h : e ∈ bucketAt s.table_ (hash e % s.capacity_)
  · simp [h]
  · simp [h]

theorem refinable_remove_mutex (hash : α → Nat) (s : RefinableState α) (e : α) :
    (HashSetRefinable.Remove hash s e).1.mutex_count_ = s.mutex_count_ := by
  rw [HashSetRefinable.Remove]
  rw [refinable_remove_idx]
  by_cases h : e ∈ bucketAt s.table_ (hash e % s.capacity_)
  · simp [h]
  · simp [h]

theorem refinable_remove_inv (hash : α → Nat) {s : RefinableState α}
    (hInv : RefinableInv hash s) (e : α) :
    RefinableInv hash (HashSetRefinable.Remove hash s e).1 := by
  rw [HashSetRefinable.Remove]
  rw [refinable_remove_idx]
  by_cases h : e ∈ bucketAt s.table_ (hash e % s.capacity_)
  · simpa [h] using TableInv.eraseElem hInv e h
  · simpa [h] using hInv

theorem refinable_remove_mem (hash : α → Nat) {s : RefinableState α}
    (hInv : RefinableInv hash s) (e x : α) :
    RefinableMem hash (HashSetRefinable.Remove hash s e).1 x ↔
      RefinableMem hash s x ∧ x ≠ e := by
  rw [HashSetRefinable.Remove]
  rw [refinable_remove_idx]
  by_cases h : e ∈ bucketAt s.table_ (hash e % s.capacity_)
  · simpa [h] using memTable_eraseElem hInv e x
  · simp only [h, if_false]
    constructor
    · intro hx
      refine ⟨hx, ?_⟩
      rintro rfl
      exact h hx
    · exact fun hx => hx.1

/-! ## Run lemmas -/

theorem run_inv {σ : Type} (A R : σ → α → σ × Bool) (P : σ → Prop)
    (hA : ∀ s e, P s → P (A s e).1) (hR : ∀ s e, P s → P (R s e).1) :
    ∀ (ops : List (Op α)) (s : σ), P s → P (run A R ops s).1 := by
  intro ops
  induction ops with
  | nil => exact fun s hs => hs
  | cons op ops ih =>
    intro s hs
    cases op with
    | add e => exact ih _ (hA s e hs)
    | remove e => exact ih _ (hR s e hs)

theorem run_mono {σ : Type} (A R : σ → α → σ × Bool) (f : σ → Nat)
    (hA : ∀ s e, f s ≤ f (A s e).1) (hR : ∀ s e, f s ≤ f (R s e).1) :
    ∀ (ops : List (Op α)) (s : σ), f s ≤ f (run A R ops s).1 := by
  intro ops
  induction ops with
  | nil => exact fun s => le_refl _
  | cons op ops ih =>
    intro s
    cases op with
    | add e => exact le_trans (hA s e) (ih (A s e).1)
    | remove e => exact le_trans (hR s e) (ih (R s e).1)

theorem run_sim {σ₁ σ₂ : Type} (A₁ R₁ : σ₁ → α → σ₁ × Bool)
    (A₂ R₂ : σ₂ → α → σ₂ × Bool) (Rel : σ₁ → σ₂ → Prop)
    (hA : ∀ s₁ s₂ e, Rel s₁ s₂ →
      Rel (A₁ s₁ e).1 (A₂ s₂ e).1 ∧ (A₁ s₁ e).2 = (A₂ s₂ e).2)
    (hR : ∀ s₁ s₂ e, Rel s₁ s₂ →
      Rel (R₁ s₁ e).1 (R₂ s₂ e).1 ∧ (R₁ s₁ e).2 = (R₂ s₂ e).2) :
    ∀ (ops : List (Op α)) (s₁ : σ₁) (s₂ : σ₂), Rel s₁ s₂ →
      Rel (run A₁ R₁ ops s₁).1 (run A₂ R₂ ops s₂).1 ∧
        (run A₁ R₁ ops s₁).2 = (run A₂ R₂ ops s₂).2 := by
  intro ops
  induction ops with
  | nil => exact fun s₁ s₂ h => ⟨h, rfl⟩
  | cons op ops ih =>
    intro s₁ s₂ h
    cases op with
    | add e =>
      obtain ⟨h1, h2⟩ := hA s₁ s₂ e h
      obtain ⟨h3, h4⟩ := ih _ _ h1
      exact ⟨h3, by simp only [run]; rw [h2, h4]⟩
    | remove e =>
      obtain ⟨h1, h2⟩ := hR s₁ s₂ e h
      obtain ⟨h3, h4⟩ := ih _ _ h1
      exact ⟨h3, by simp only [run]; rw [h2, h4]⟩

/-! ## Freshly constructed states -/

theorem tableInv_emptyTable (hash : α → Nat) (c : Nat) (hc : 0 < c) :
    TableInv hash (emptyTable c : List (List α)) c 0 := by
  refine ⟨by simp [emptyTable], hc, ?_, ?_, ?_⟩
  · intro i e he
    rw [bucketAt_emptyTable] at he
    simp at he
  · intro i
    rw [bucketAt_emptyTable]
    exact List.nodup_nil
  · rw [tableSize_emptyTable]

theorem memTable_emptyTable (hash : α → Nat) (c c' : Nat) (x : α) :
    ¬ memTable hash (emptyTable c : List (List α)) c' x := by
  rw [memTable, bucketAt_emptyTable]
  simp

theorem seq_mk_inv (hash : α → Nat) (c : Nat) (hc : 0 < c) :
    SeqInv hash (HashSetSequential.mk c : SeqState α) :=
  tableInv_emptyTable hash c hc

theorem striped_mk_inv (hash : α → Nat) (c : Nat) (hc : 0 < c) :
    StripedInv hash (HashSetStriped.mk c : StripedState α) :=
  tableInv_emptyTable hash c hc

theorem refinable_mk_inv (hash : α → Nat) (c : Nat) (hc : 0 < c) :
    RefinableInv hash (HashSetRefinable.mk c : RefinableState α) :=
  tableInv_emptyTable hash c hc

theorem runSeq_inv (hash : α → Nat) (c : Nat) (hc : 0 < c) (ops : List (Op α)) :
    SeqInv hash (runSeq hash ops (HashSetSequential.mk c)).1 :=
  run_inv _ _ (SeqInv hash) (fun _ e hs => seq_add_inv hash hs e)
    (fun _ e hs => seq_remove_inv hash hs e) ops _ (seq_mk_inv hash c hc)

theorem runStriped_inv (hash : α → Nat) (c : Nat) (hc : 0 < c) (ops : List (Op α)) :
    StripedInv hash (runStriped hash ops (HashSetStriped.mk c)).1 :=
  run_inv _ _ (StripedInv hash) (fun _ e hs => striped_add_inv hash hs e)
    (fun _ e hs => striped_remove_inv hash hs e) ops _ (striped_mk_inv hash c hc)

theorem runRefinable_inv (hash : α → Nat) (c : Nat) (hc : 0 < c) (ops : List (Op α)) :
    RefinableInv hash (runRefinable hash ops (HashSetRefinable.mk c)).1 :=
  run_inv _ _ (RefinableInv hash) (fun _ e hs => refinable_add_inv hash hs e)
    (fun _ e hs => refinable_remove_inv hash hs e) ops _ (refinable_mk_inv hash c hc)

theorem runCoarse_eq_runSeq (hash : α → Nat) (ops : List (Op α)) (s : SeqState α) :
    runCoarse hash ops s = runSeq hash ops s := rfl

/-! ## Refinement: each concurrent variant against the sequential oracle -/

theorem seq_striped_contains_congr (hash : α → Nat) {s₁ : SeqState α}
    {s₂ : StripedState α}
    (h3 : ∀ x, SeqMem hash s₁ x ↔ StripedMem hash s₂ x) (e : α) :
    HashSetSequential.Contains hash s₁ e = HashSetStriped.Contains hash s₂ e := by
  have h := h3 e
  rw [SeqMem, StripedMem, memTable, memTable] at h
  rw [HashSetSequential.Contains, HashSetStriped.Contains]
  exact decide_eq_decide.2 h

theorem seq_refinable_contains_congr (hash : α → Nat) {s₁ : SeqState α}
    {s₂ : RefinableState α}
    (h3 : ∀ x, SeqMem hash s₁ x ↔ RefinableMem hash s₂ x) (e : α) :
    HashSetSequential.Contains hash s₁ e = HashSetRefinable.Contains hash s₂ e := by
  have h := h3 e
  rw [SeqMem, RefinableMem, memTable, memTable] at h
  rw [HashSetSequential.Contains, HashSetRefinable.Contains]
  exact decide_eq_decide.2 h

theorem seq_striped_step_add (hash : α → Nat) {s₁ : SeqState α}
    {s₂ : StripedState α}
    (h : SeqInv hash s₁ ∧ StripedInv hash s₂ ∧
      ∀ x, SeqMem hash s₁ x ↔ StripedMem hash s₂ x) (e : α) :
    (SeqInv hash (HashSetSequential.Add hash s₁ e).1 ∧
      StripedInv hash (HashSetStriped.Add hash s₂ e).1 ∧
      ∀ x, SeqMem hash (HashSetSequential.Add hash s₁ e).1 x ↔
        StripedMem hash (HashSetStriped.Add hash s₂ e).1 x) ∧
    (HashSetSequential.Add hash s₁ e).2 = (HashSetStriped.Add hash s₂ e).2 := by
  obtain ⟨h1, h2, h3⟩ := h
  refine ⟨⟨seq_add_inv hash h1 e, striped_add_inv hash h2 e, ?_⟩, ?_⟩
  · intro x
    rw [seq_add_mem hash h1 e x, striped_add_mem hash h2 e x, h3 x]
  · rw [seq_add_ret, striped_add_ret hash h2, seq_striped_contains_congr hash h3 e]

theorem seq_striped_step_remove (hash : α → Nat) {s₁ : SeqState α}
    {s₂ : StripedState α}
    (h : SeqInv hash s₁ ∧ StripedInv hash s₂ ∧
      ∀ x, SeqMem hash s₁ x ↔ StripedMem hash s₂ x) (e : α) :
    (SeqInv hash (HashSetSequential.Remove hash s₁ e).1 ∧
      StripedInv hash (HashSetStriped.Remove hash s₂ e).1 ∧
      ∀ x, SeqMem hash (HashSetSequential.Remove hash s₁ e).1 x ↔
        StripedMem hash (HashSetStriped.Remove hash s₂ e).1 x) ∧
    (HashSetSequential.Remove hash s₁ e).2 = (HashSetStriped.Remove hash s₂ e).2 := by
  obtain ⟨h1, h2, h3⟩ := h
  refine ⟨⟨seq_remove_inv hash h1 e, striped_remove_inv hash h2 e, ?_⟩, ?_⟩
  · intro x
    rw [seq_remove_mem hash h1 e x, striped_remove_mem hash h2 e x, h3 x]
  · rw [seq_remove_ret, striped_remove_ret, seq_striped_contains_congr hash h3 e]

theorem seq_refinable_step_add (hash : α → Nat) {s₁ : SeqState α}
    {s₂ : RefinableState α}
    (h : SeqInv hash s₁ ∧ RefinableInv hash s₂ ∧
      ∀ x, SeqMem hash s₁ x ↔ RefinableMem hash s₂ x) (e : α) :
    (SeqInv hash (HashSetSequential.Add hash s₁ e).1 ∧
      RefinableInv hash (HashSetRefinable.Add hash s₂ e).1 ∧
      ∀ x, SeqMem hash (HashSetSequential.Add hash s₁ e).1 x ↔
        RefinableMem hash (HashSetRefinable.Add hash s₂ e).1 x) ∧
    (HashSetSequential.Add hash s₁ e).2 = (HashSetRefinable.Add hash s₂ e).2 := by
  obtain ⟨h1, h2, h3⟩ := h
  refine ⟨⟨seq_add_inv hash h1 e, refinable_add_inv hash h2 e, ?_⟩, ?_⟩
  · intro x
    rw [seq_add_mem hash h1 e x, refinable_add_mem hash h2 e x, h3 x]
  · rw [seq_add_ret, refinable_add_ret hash h2, seq_refinable_contains_congr hash h3 e]

theorem seq_refinable_step_remove (hash : α → Nat) {s₁ : SeqState α}
    {s₂ : RefinableState α}
    (h : SeqInv hash s₁ ∧ RefinableInv hash s₂ ∧
      ∀ x, SeqMem hash s₁ x ↔ RefinableMem hash s₂ x) (e : α) :
    (SeqInv hash (HashSetSequential.Remove hash s₁ e).1 ∧
      RefinableInv hash (HashSetRefinable.Remove hash s₂ e).1 ∧
      ∀ x, SeqMem hash (HashSetSequential.Remove hash s₁ e).1 x ↔
        RefinableMem hash (HashSetRefinable.Remove hash s₂ e).1 x) ∧
    (HashSetSequential.Remove hash s₁ e).2 = (HashSetRefinable.Remove hash s₂ e).2 := by
  obtain ⟨h1, h2, h3⟩ := h
  refine ⟨⟨seq_remove_inv hash h1 e, refinable_remove_inv hash h2 e, ?_⟩, ?_⟩
  · intro x
    rw [seq_remove_mem hash h1 e x, refinable_remove_mem hash h2 e x, h3 x]
  · rw [seq_remove_ret, refinable_remove_ret, seq_refinable_contains_congr hash h3 e]

theorem runSeq_runStriped_rel (hash : α → Nat) (c : Nat) (hc : 0 < c)
    (ops : List (Op α)) :
    (SeqInv hash (runSeq hash ops (HashSetSequential.mk c)).1 ∧
      StripedInv hash (runStriped hash ops (HashSetStriped.mk c)).1 ∧
      ∀ x, SeqMem hash (runSeq hash ops (HashSetSequential.mk c)).1 x ↔
        StripedMem hash (runStriped hash ops (HashSetStriped.mk c)).1 x) ∧
    (runSeq hash ops (HashSetSequential.mk c)).2 =
      (runStriped hash ops (HashSetStriped.mk c)).2 := by
  refine run_sim _ _ _ _
    (fun s₁ s₂ => SeqInv hash s₁ ∧ StripedInv hash s₂ ∧
      ∀ x, SeqMem hash s₁ x ↔ StripedMem hash s₂ x)
    (fun s₁ s₂ e h => seq_striped_step_add hash h e)
    (fun s₁ s₂ e h => seq_striped_step_remove hash h e)
    ops _ _ ⟨seq_mk_inv hash c hc, striped_mk_inv hash c hc, ?_⟩
  intro x
  constructor
  · intro hx
    exact absurd hx (memTable_emptyTable hash c c x)
  · intro hx
    exact absurd hx (memTable_emptyTable hash c c x)

theorem runSeq_runRefinable_rel (hash : α → Nat) (c : Nat) (hc : 0 < c)
    (ops : List (Op α)) :
    (SeqInv hash (runSeq hash ops (HashSetSequential.mk c)).1 ∧
      RefinableInv hash (runRefinable hash ops (HashSetRefinable.mk c)).1 ∧
      ∀ x, SeqMem hash (runSeq hash ops (HashSetSequential.mk c)).1 x ↔
        RefinableMem hash (runRefinable hash ops (HashSetRefinable.mk c)).1 x) ∧
    (runSeq hash ops (HashSetSequential.mk c)).2 =
      (runRefinable hash ops (HashSetRefinable.mk c)).2 := by
  refine run_sim _ _ _ _
    (fun s₁ s₂ => SeqInv hash s₁ ∧ RefinableInv hash s₂ ∧
      ∀ x, SeqMem hash s₁ x ↔ RefinableMem hash s₂ x)
    (fun s₁ s₂ e h => seq_refinable_step_add hash h e)
    (fun s₁ s₂ e h => seq_refinable_step_remove hash h e)
    ops _ _ ⟨seq_mk_inv hash c hc, refinable_mk_inv hash c hc, ?_⟩
  intro x
  constructor
  · intro hx
    exact absurd hx (memTable_emptyTable hash c c x)
  · intro hx
    exact absurd hx (memTable_emptyTable hash c c x)

/-- C1: replaying any sequence of Add/Remove operations sequentially
against `HashSetCoarseGrained`, `HashSetStriped`, and `HashSetRefinable`
yields, operation by operation, the same boolean return values as replaying
it against `HashSetSequential`, and afterwards `Contains` agrees with the
sequential set on every element. -/
theorem c1_variants_refine_sequential (hash : α → Nat) (c : Nat) (hc : 0 < c)
    (ops : List (Op α)) :
    ((runCoarse hash ops (HashSetCoarseGrained.mk c)).2 =
        (runSeq hash ops (HashSetSequential.mk c)).2 ∧
      ∀ x, HashSetCoarseGrained.Contains hash
          (runCoarse hash ops (HashSetCoarseGrained.mk c)).1 x =
        HashSetSequential.Contains hash (runSeq hash ops (HashSetSequential.mk c)).1 x) ∧
    ((runStriped hash ops (HashSetStriped.mk c)).2 =
        (runSeq hash ops (HashSetSequential.mk c)).2 ∧
      ∀ x, HashSetStriped.Contains hash (runStriped hash ops (HashSetStriped.mk c)).1 x =
        HashSetSequential.Contains hash (runSeq hash ops (HashSetSequential.mk c)).1 x) ∧
    ((runRefinable hash ops (HashSetRefinable.mk c)).2 =
        (runSeq hash ops (HashSetSequential.mk c)).2 ∧
      ∀ x, HashSetRefinable.Contains hash (runRefinable hash ops (HashSetRefinable.mk c)).1 x =
        HashSetSequential.Contains hash (runSeq hash ops (HashSetSequential.mk c)).1 x) := by
  obtain ⟨⟨hs1, hs2, hs3⟩, hso⟩ := runSeq_runStriped_rel hash c hc ops
  obtain ⟨⟨hr1, hr2, hr3⟩, hro⟩ := runSeq_runRefinable_rel hash c hc ops
  refine ⟨⟨rfl, fun x => rfl⟩, ⟨hso.symm, fun x => ?_⟩, ⟨hro.symm, fun x => ?_⟩⟩
  · exact (seq_striped_contains_congr hash hs3 x).symm
  · exact (seq_refinable_contains_congr hash hr3 x).symm

/-- C2: after replaying any sequence of operations from a freshly
constructed set with positive capacity, for every variant: every resident
element lies in the bucket selected by its hash modulo the current
capacity (and hence in no other bucket), no bucket holds a duplicate, and
`size_` equals the number of entries in the table. -/
theorem c2_table_invariants (hash : α → Nat) (c : Nat) (hc : 0 < c)
    (ops : List (Op α)) :
    ((∀ e i, e ∈ bucketAt (runSeq hash ops (HashSetSequential.mk c)).1.table_ i →
        i = hash e % (runSeq hash ops (HashSetSequential.mk c)).1.capacity_) ∧
      (∀ i, (bucketAt (runSeq hash ops (HashSetSequential.mk c)).1.table_ i).Nodup) ∧
      (runSeq hash ops (HashSetSequential.mk c)).1.size_ =
        tableSize (runSeq hash ops (HashSetSequential.mk c)).1.table_) ∧
    ((∀ e i, e ∈ bucketAt (runCoarse hash ops (HashSetCoarseGrained.mk c)).1.table_ i →
        i = hash e % (runCoarse hash ops (HashSetCoarseGrained.mk c)).1.capacity_) ∧
      (∀ i, (bucketAt (runCoarse hash ops (HashSetCoarseGrained.mk c)).1.table_ i).Nodup) ∧
      (runCoarse hash ops (HashSetCoarseGrained.mk c)).1.size_ =
        tableSize (runCoarse hash ops (HashSetCoarseGrained.mk c)).1.table_) ∧
    ((∀ e i, e ∈ bucketAt (runStriped hash ops (HashSetStriped.mk c)).1.table_ i →
        i = hash e % (runStriped hash ops (HashSetStriped.mk c)).1.capacity_) ∧
      (∀ i, (bucketAt (runStriped hash ops (HashSetStriped.mk c)).1.table_ i).Nodup) ∧
      (runStriped hash ops (HashSetStriped.mk c)).1.size_ =
        tableSize (runStriped hash ops (HashSetStriped.mk c)).1.table_) ∧
    ((∀ e i, e ∈ bucketAt (runRefinable hash ops (HashSetRefinable.mk c)).1.table_ i →
        i = hash e % (runRefinable hash ops (HashSetRefinable.mk c)).1.capacity_) ∧
      (∀ i, (bucketAt (runRefinable hash ops (HashSetRefinable.mk c)).1.table_ i).Nodup) ∧
      (runRefinable hash ops (HashSetRefinable.mk c)).1.size_ =
        tableSize (runRefinable hash ops (HashSetRefinable.mk c)).1.table_) := by
  have h1 := runSeq_inv hash c hc ops
  have h2 := runStriped_inv hash c hc ops
  have h3 := runRefinable_inv hash c hc ops
  refine ⟨⟨fun e i he => (h1.correct_bucket i e he).symm, h1.bucket_nodup, h1.size_eq⟩,
    ⟨fun e i he => (h1.correct_bucket i e he).symm, h1.bucket_nodup, h1.size_eq⟩,
    ⟨fun e i he => (h2.correct_bucket i e he).symm, h2.bucket_nodup, h2.size_eq⟩,
    ⟨fun e i he => (h3.correct_bucket i e he).symm, h3.bucket_nodup, h3.size_eq⟩⟩

/-! ## Contains characterisations -/

theorem seq_contains_iff (hash : α → Nat) (s : SeqState α) (e : α) :
    HashSetSequential.Contains hash s e = true ↔ SeqMem hash s e := by
  rw [HashSetSequential.Contains, decide_eq_true_iff]
  exact Iff.rfl

theorem seq_contains_false_iff (hash : α → Nat) (s : SeqState α) (e : α) :
    HashSetSequential.Contains hash s e = false ↔ ¬ SeqMem hash s e := by
  rw [HashSetSequential.Contains, decide_eq_false_iff_not]
  exact Iff.rfl

theorem striped_contains_iff (hash : α → Nat) (s : StripedState α) (e : α) :
    HashSetStriped.Contains hash s e = true ↔ StripedMem hash s e := by
  rw [HashSetStriped.Contains, decide_eq_true_iff]
  exact Iff.rfl

theorem striped_contains_false_iff (hash : α → Nat) (s : StripedState α) (e : α) :
    HashSetStriped.Contains hash s e = false ↔ ¬ StripedMem hash s e := by
  rw [HashSetStriped.Contains, decide_eq_false_iff_not]
  exact Iff.rfl

theorem refinable_contains_iff (hash : α → Nat) (s : RefinableState α) (e : α) :
    HashSetRefinable.Contains hash s e = true ↔ RefinableMem hash s e := by
  rw [HashSetRefinable.Contains, decide_eq_true_iff]
  exact Iff.rfl

theorem refinable_contains_false_iff (hash : α → Nat) (s : RefinableState α) (e : α) :
    HashSetRefinable.Contains hash s e = false ↔ ¬ RefinableMem hash s e := by
  rw [HashSetRefinable.Contains, decide_eq_false_iff_not]
  exact Iff.rfl

/-- C4: in every variant, over any operations, `capacity_` never decreases;
a single operation either leaves `capacity_` unchanged or exactly doubles
it, and doubling happens only when the size on which the resize decision is
based (the size after the insertion for Sequential/CoarseGrained, the size
at entry to Add for Striped/Refinable) exceeds four times the capacity. -/
theorem c4_capacity_evolution (hash : α → Nat) :
    (∀ (s : SeqState α) (e : α),
      (HashSetSequential.Add hash s e).1.capacity_ = s.capacity_ ∨
        ((HashSetSequential.Add hash s e).1.capacity_ = s.capacity_ * 2 ∧
          4 * s.capacity_ < s.size_ + 1)) ∧
    (∀ (s : SeqState α) (e : α),
      (HashSetSequential.Remove hash s e).1.capacity_ = s.capacity_) ∧
    (∀ (ops : List (Op α)) (s : SeqState α),
      s.capacity_ ≤ (runSeq hash ops s).1.capacity_) ∧
    (∀ (s : SeqState α) (e : α),
      (HashSetCoarseGrained.Add hash s e).1.capacity_ = s.capacity_ ∨
        ((HashSetCoarseGrained.Add hash s e).1.capacity_ = s.capacity_ * 2 ∧
          4 * s.capacity_ < s.size_ + 1)) ∧
    (∀ (s : SeqState α) (e : α),
      (HashSetCoarseGrained.Remove hash s e).1.capacity_ = s.capacity_) ∧
    (∀ (ops : List (Op α)) (s : SeqState α),
      s.capacity_ ≤ (runCoarse hash ops s).1.capacity_) ∧
    (∀ (s : StripedState α) (e : α),
      (HashSetStriped.Add hash s e).1.capacity_ = s.capacity_ ∨
        ((HashSetStriped.Add hash s e).1.capacity_ = s.capacity_ * 2 ∧
          4 * s.capacity_ < s.size_)) ∧
    (∀ (s : StripedState α) (e : α),
      (HashSetStriped.Remove hash s e).1.capacity_ = s.capacity_) ∧
    (∀ (ops : List (Op α)) (s : StripedState α),
      s.capacity_ ≤ (runStriped hash ops s).1.capacity_) ∧
    (∀ (s : RefinableState α) (e : α),
      (HashSetRefinable.Add hash s e).1.capacity_ = s.capacity_ ∨
        ((HashSetRefinable.Add hash s e).1.capacity_ = s.capacity_ * 2 ∧
          4 * s.capacity_ < s.size_)) ∧
    (∀ (s : RefinableState α) (e : α),
      (HashSetRefinable.Remove hash s e).1.capacity_ = s.capacity_) ∧
    (∀ (ops : List (Op α)) (s : RefinableState α),
      s.capacity_ ≤ (runRefinable hash ops s).1.capacity_) := by
  have hseqA : ∀ (s : SeqState α) (e : α),
      (HashSetSequential.Add hash s e).1.capacity_ = s.capacity_ ∨
        ((HashSetSequential.Add hash s e).1.capacity_ = s.capacity_ * 2 ∧
          4 * s.capacity_ < s.size_ + 1) := by
    intro s e
    rw [seq_add_cap]
    by_cases h : (HashSetSequential.Add hash s e).2 = true ∧ s.size_ + 1 > 4 * s.capacity_
    · rw [if_pos h]
      exact Or.inr ⟨rfl, h.2⟩
    · rw [if_neg h]
      exact Or.inl rfl
  have hstrA : ∀ (s : StripedState α) (e : α),
      (HashSetStriped.Add hash s e).1.capacity_ = s.capacity_ ∨
        ((HashSetStriped.Add hash s e).1.capacity_ = s.capacity_ * 2 ∧
          4 * s.capacity_ < s.size_) := by
    intro s e
    rw [striped_add_cap]
    by_cases h : s.size_ > 4 * s.capacity_
    · rw [if_pos h]
      exact Or.inr ⟨rfl, h⟩
    · rw [if_neg h]
      exact Or.inl rfl
  have hrefA : ∀ (s : RefinableState α) (e : α),
      (HashSetRefinable.Add hash s e).1.capacity_ = s.capacity_ ∨
        ((HashSetRefinable.Add hash s e).1.capacity_ = s.capacity_ * 2 ∧
          4 * s.capacity_ < s.size_) := by
    intro s e
    rw [refinable_add_cap]
    by_cases h : s.size_ > 4 * s.capacity_
    · rw [if_pos h]
      exact Or.inr ⟨rfl, h⟩
    · rw [if_neg h]
      exact Or.inl rfl
  refine ⟨hseqA, fun s e => seq_remove_cap hash s e, ?_, hseqA,
    fun s e => seq_remove_cap hash s e, ?_, hstrA,
    fun s e => striped_remove_cap hash s e, ?_, hrefA,
    fun s e => refinable_remove_cap hash s e, ?_⟩
  · exact fun ops s => run_mono _ _ (fun s => s.capacity_)
      (fun s e => by
        show s.capacity_ ≤ (HashSetSequential.Add hash s e).1.capacity_
        rcases hseqA s e with h | h
        · omega
        · rcases h with ⟨h, _⟩; omega)
      (fun s e => le_of_eq (seq_remove_cap hash s e).symm) ops s
  · exact fun ops s => run_mono _ _ (fun s => s.capacity_)
      (fun s e => by
        show s.capacity_ ≤ (HashSetSequential.Add hash s e).1.capacity_
        rcases hseqA s e with h | h
        · omega
        · rcases h with ⟨h, _⟩; omega)
      (fun s e => le_of_eq (seq_remove_cap hash s e).symm) ops s
  · exact fun ops s => run_mono _ _ (fun s => s.capacity_)
      (fun s e => by
        show s.capacity_ ≤ (HashSetStriped.Add hash s e).1.capacity_
        rcases hstrA s e with h | h
        · omega
        · rcases h with ⟨h, _⟩; omega)
      (fun s e => le_of_eq (striped_remove_cap hash s e).symm) ops s
  · exact fun ops s => run_mono _ _ (fun s => s.capacity_)
      (fun s e => by
        show s.capacity_ ≤ (HashSetRefinable.Add hash s e).1.capacity_
        rcases hrefA s e with h | h
        · omega
        · rcases h with ⟨h, _⟩; omega)
      (fun s e => le_of_eq (refinable_remove_cap hash s e).symm) ops s

/-- C9: a freshly constructed set with positive capacity is empty in every
variant: `Size` is 0, `Contains` is false everywhere, and the capacity (and
stripe/lock count where applicable) equals the requested initial capacity. -/
theorem c9_fresh_empty (hash : α → Nat) (c : Nat) (hc : 0 < c) :
    (HashSetSequential.Size (HashSetSequential.mk c : SeqState α) = 0 ∧
      (HashSetSequential.mk c : SeqState α).capacity_ = c ∧
      ∀ e : α, HashSetSequential.Contains hash (HashSetSequential.mk c) e = false) ∧
    (HashSetCoarseGrained.Size (HashSetCoarseGrained.mk c : SeqState α) = 0 ∧
      (HashSetCoarseGrained.mk c : SeqState α).capacity_ = c ∧
      ∀ e : α, HashSetCoarseGrained.Contains hash (HashSetCoarseGrained.mk c) e = false) ∧
    (HashSetStriped.Size (HashSetStriped.mk c : StripedState α) = 0 ∧
      (HashSetStriped.mk c : StripedState α).capacity_ = c ∧
      (HashSetStriped.mk c : StripedState α).mutex_count_ = c ∧
      ∀ e : α, HashSetStriped.Contains hash (HashSetStriped.mk c) e = false) ∧
    (HashSetRefinable.Size (HashSetRefinable.mk c : RefinableState α) = 0 ∧
      (HashSetRefinable.mk c : RefinableState α).capacity_ = c ∧
      (HashSetRefinable.mk c : RefinableState α).mutex_count_ = c ∧
      ∀ e : α, HashSetRefinable.Contains hash (HashSetRefinable.mk c) e = false) := by
  refine ⟨⟨rfl, rfl, fun e => ?_⟩, ⟨rfl, rfl, fun e => ?_⟩,
    ⟨rfl, rfl, rfl, fun e => ?_⟩, ⟨rfl, rfl, rfl, fun e => ?_⟩⟩
  · rw [seq_contains_false_iff]
    exact memTable_emptyTable hash c c e
  · rw [show HashSetCoarseGrained.Contains hash (HashSetCoarseGrained.mk c) e =
      HashSetSequential.Contains hash (HashSetSequential.mk c) e from rfl,
      seq_contains_false_iff]
    exact memTable_emptyTable hash c c e
  · rw [striped_contains_false_iff]
    exact memTable_emptyTable hash c c e
  · rw [refinable_contains_false_iff]
    exact memTable_emptyTable hash c c e

/-- C10: in `HashSetStriped`, `mutex_count_` keeps its construction value
across any operation sequence, the capacity reached is always
`mutex_count_` times a power of two, and therefore elements whose bucket
indices (mod `capacity_`) agree also share their stripe index
(mod `mutex_count_`). -/
theorem c10_stripe_alignment (hash : α → Nat) (c : Nat) (hc : 0 < c)
    (ops : List (Op α)) :
    (runStriped hash ops (HashSetStriped.mk c : StripedState α)).1.mutex_count_ = c ∧
    (∃ k : Nat, (runStriped hash ops (HashSetStriped.mk c : StripedState α)).1.capacity_ =
      (runStriped hash ops (HashSetStriped.mk c)).1.mutex_count_ * 2 ^ k) ∧
    ∀ h1 h2 : Nat,
      h1 % (runStriped hash ops (HashSetStriped.mk c : StripedState α)).1.capacity_ =
        h2 % (runStriped hash ops (HashSetStriped.mk c)).1.capacity_ →
      h1 % (runStriped hash ops (HashSetStriped.mk c)).1.mutex_count_ =
        h2 % (runStriped hash ops (HashSetStriped.mk c)).1.mutex_count_ := by
  have hP := run_inv (HashSetStriped.Add hash) (HashSetStriped.Remove hash)
    (fun s => s.mutex_count_ = c ∧ ∃ k : Nat, s.capacity_ = s.mutex_count_ * 2 ^ k)
    (fun s e hs => by
      obtain ⟨hm, k, hk⟩ := hs
      refine ⟨by rw [striped_add_mutex, hm], ?_⟩
      rw [striped_add_cap, striped_add_mutex]
      by_cases h : s.size_ > 4 * s.capacity_
      · rw [if_pos h]
        exact ⟨k + 1, by rw [hk]; ring⟩
      · rw [if_neg h]
        exact ⟨k, hk⟩)
    (fun s e hs => by
      obtain ⟨hm, k, hk⟩ := hs
      rw [striped_remove_mutex, striped_remove_cap]
      exact ⟨hm, k, hk⟩)
    ops (HashSetStriped.mk c) ⟨rfl, 0, by simp [HashSetStriped.mk]⟩
  obtain ⟨hm, k, hk⟩ := hP
  refine ⟨hm, ⟨k, hk⟩, ?_⟩
  intro h1 h2 hmod
  have hdvd : (runStriped hash ops (HashSetStriped.mk c : StripedState α)).1.mutex_count_ ∣
      (runStriped hash ops (HashSetStriped.mk c)).1.capacity_ := ⟨2 ^ k, hk⟩
  calc h1 % (runStriped hash ops (HashSetStriped.mk c : StripedState α)).1.mutex_count_
      = h1 % (runStriped hash ops (HashSetStriped.mk c)).1.capacity_ %
          (runStriped hash ops (HashSetStriped.mk c)).1.mutex_count_ :=
        (Nat.mod_mod_of_dvd h1 hdvd).symm
    _ = h2 % (runStriped hash ops (HashSetStriped.mk c)).1.capacity_ %
          (runStriped hash ops (HashSetStriped.mk c)).1.mutex_count_ := by rw [hmod]
    _ = h2 % (runStriped hash ops (HashSetStriped.mk c)).1.mutex_count_ :=
        Nat.mod_mod_of_dvd h2 hdvd

/-- C6: a set constructed with `initial_capacity = 0` has `capacity_ = 0`
(and `mutex_count_ = 0` where applicable), so in every variant the first
modulus evaluated by any subsequent `Add`, `Remove`, or `Contains` divides
by zero: the fallible versions of all twelve operations fault (`none`)
instead of completing normally. -/
theorem c6_zero_capacity_faults (hash : α → Nat) (e : α) :
    HashSetSequential.AddChecked hash (HashSetSequential.mk 0) e = none ∧
    HashSetSequential.RemoveChecked hash (HashSetSequential.mk 0) e = none ∧
    HashSetSequential.ContainsChecked hash (HashSetSequential.mk 0) e = none ∧
    HashSetCoarseGrained.AddChecked hash (HashSetCoarseGrained.mk 0) e = none ∧
    HashSetCoarseGrained.RemoveChecked hash (HashSetCoarseGrained.mk 0) e = none ∧
    HashSetCoarseGrained.ContainsChecked hash (HashSetCoarseGrained.mk 0) e = none ∧
    HashSetStriped.AddChecked hash (HashSetStriped.mk 0) e = none ∧
    HashSetStriped.RemoveChecked hash (HashSetStriped.mk 0) e = none ∧
    HashSetStriped.ContainsChecked hash (HashSetStriped.mk 0) e = none ∧
    HashSetRefinable.AddChecked hash (HashSetRefinable.mk 0) e = none ∧
    HashSetRefinable.RemoveChecked hash (HashSetRefinable.mk 0) e = none ∧
    HashSetRefinable.ContainsChecked hash (HashSetRefinable.mk 0) e = none := by
  refine ⟨?_, ?_, ?_, ?_, ?_, ?_, ?_, ?_, ?_, ?_, ?_, ?_⟩
  · simp [HashSetSequential.AddChecked, HashSetSequential.mk, mod?]
  · simp [HashSetSequential.RemoveChecked, HashSetSequential.mk, mod?]
  · simp [HashSetSequential.ContainsChecked, HashSetSequential.mk, mod?]
  · simp [HashSetCoarseGrained.AddChecked, HashSetCoarseGrained.mk,
      HashSetSequential.AddChecked, mod?]
  · simp [HashSetCoarseGrained.RemoveChecked, HashSetCoarseGrained.mk,
      HashSetSequential.RemoveChecked, mod?]
  · simp [HashSetCoarseGrained.ContainsChecked, HashSetCoarseGrained.mk,
      HashSetSequential.ContainsChecked, mod?]
  · simp [HashSetStriped.AddChecked, HashSetStriped.mk, mod?]
  · simp [HashSetStriped.RemoveChecked, HashSetStriped.mk, mod?]
  · simp [HashSetStriped.ContainsChecked, HashSetStriped.mk, mod?]
  · simp [HashSetRefinable.AddChecked, HashSetRefinable.mk, mod?]
  · simp [HashSetRefinable.RemoveChecked, HashSetRefinable.mk, mod?]
  · simp [HashSetRefinable.ContainsChecked, HashSetRefinable.mk, mod?]

/-! ## Resize recheck (C5) -/

theorem rehash_zero (hash : α → Nat) (t : List (List α)) :
    rehash hash 0 t = [] :=
  List.eq_nil_of_length_eq_zero (length_rehash hash 0 t)

/-- C5 counterexample: `HashSetStriped::resize` does not recheck the
load-factor condition after taking its barrier.  The fresh capacity-1 set
has load factor 0 (resize is not "required"), yet `resize` entered with the
matching observed capacity doubles the capacity anyway. -/
theorem c5_counterexample :
    (HashSetStriped.mk 1 : StripedState Nat).size_ ≤
        4 * (HashSetStriped.mk 1 : StripedState Nat).capacity_ ∧
    (HashSetStriped.resizeFrom (fun n => n) 1
        (HashSetStriped.mk 1 : StripedState Nat)).capacity_ = 2 ∧
    (HashSetStriped.mk 1 : StripedState Nat).capacity_ = 1 := by
  decide

/-- C5 amended: after acquiring its barrier, resize in the striped and
refinable variants rechecks whether `capacity_` still equals the value
observed before the barrier - not the load factor.  If capacity changed it
returns with the state completely unchanged; if not it doubles and rebuilds
regardless of the current load factor.  Running resize twice from a single
observation changes the state exactly as running it once, so one threshold
crossing can never double the capacity twice. -/
theorem c5_recheck_amended (hash : α → Nat) :
    (∀ (s : StripedState α) (old : Nat), s.capacity_ ≠ old →
      HashSetStriped.resizeFrom hash old s = s) ∧
    (∀ (s : StripedState α) (old : Nat), s.capacity_ = old →
      (HashSetStriped.resizeFrom hash old s).capacity_ = s.capacity_ * 2) ∧
    (∀ (s : StripedState α) (old : Nat),
      HashSetStriped.resizeFrom hash old (HashSetStriped.resizeFrom hash old s) =
        HashSetStriped.resizeFrom hash old s) ∧
    (∀ (s : RefinableState α) (old : Nat), s.capacity_ ≠ old →
      HashSetRefinable.resizeFrom hash old s = s) ∧
    (∀ (s : RefinableState α) (old : Nat), s.capacity_ = old →
      (HashSetRefinable.resizeFrom hash old s).capacity_ = s.capacity_ * 2) ∧
    (∀ (s : RefinableState α) (old : Nat),
      HashSetRefinable.resizeFrom hash old (HashSetRefinable.resizeFrom hash old s) =
        HashSetRefinable.resizeFrom hash old s) := by
  refine ⟨?_, ?_, ?_, ?_, ?_, ?_⟩
  · intro s old h
    rw [HashSetStriped.resizeFrom, if_pos h]
  · intro s old h
    rw [HashSetStriped.resizeFrom, if_neg (by simp [h])]
  · intro s old
    by_cases h : s.capacity_ = old
    · obtain ⟨t, mc, cap, n⟩ := s
      simp only at h
      subst h
      by_cases hz : cap = 0
      · subst hz
        simp [HashSetStriped.resizeFrom, rehash_zero]
      · have hin : HashSetStriped.resizeFrom hash cap (⟨t, mc, cap, n⟩ : StripedState α) =
            ⟨rehash hash (cap * 2) t, mc, cap * 2, n⟩ := by
          rw [HashSetStriped.resizeFrom, if_neg (by simp)]
        rw [hin]
        rw [HashSetStriped.resizeFrom, if_pos (by simp; omega)]
    · have hin : HashSetStriped.resizeFrom hash old s = s := by
        rw [HashSetStriped.resizeFrom, if_pos h]
      rw [hin]
      exact hin
  · intro s old h
    rw [HashSetRefinable.resizeFrom, if_pos h]
  · intro s old h
    rw [HashSetRefinable.resizeFrom, if_neg (by simp [h])]
  · intro s old
    by_cases h : s.capacity_ = old
    · obtain ⟨t, mc, cap, n⟩ := s
      simp only at h
      subst h
      by_cases hz : cap = 0
      · subst hz
        simp [HashSetRefinable.resizeFrom, rehash_zero]
      · have hin : HashSetRefinable.resizeFrom hash cap (⟨t, mc, cap, n⟩ : RefinableState α) =
            ⟨rehash hash (cap * 2) t, max mc (cap * 2), cap * 2, n⟩ := by
          rw [HashSetRefinable.resizeFrom, if_neg (by simp)]
        rw [hin]
        rw [HashSetRefinable.resizeFrom, if_pos (by simp; omega)]
    · have hin : HashSetRefinable.resizeFrom hash old s = s := by
        rw [HashSetRefinable.resizeFrom, if_pos h]
      rw [hin]
      exact hin

/-! ## Idempotence (C7) -/

theorem seq_add_twice_false (hash : α → Nat) {s : SeqState α}
    (hInv : SeqInv hash s) (e : α) :
    (HashSetSequential.Add hash (HashSetSequential.Add hash s e).1 e).2 = false := by
  rw [seq_add_ret]
  have hmem : SeqMem hash (HashSetSequential.Add hash s e).1 e :=
    (seq_add_mem hash hInv e e).2 (Or.inr rfl)
  rw [(seq_contains_iff hash _ e).2 hmem]
  rfl

theorem striped_add_twice_false (hash : α → Nat) {s : StripedState α}
    (hInv : StripedInv hash s) (e : α) :
    (HashSetStriped.Add hash (HashSetStriped.Add hash s e).1 e).2 = false := by
  rw [striped_add_ret hash (striped_add_inv hash hInv e)]
  have hmem : StripedMem hash (HashSetStriped.Add hash s e).1 e :=
    (striped_add_mem hash hInv e e).2 (Or.inr rfl)
  rw [(striped_contains_iff hash _ e).2 hmem]
  rfl

theorem refinable_add_twice_false (hash : α → Nat) {s : RefinableState α}
    (hInv : RefinableInv hash s) (e : α) :
    (HashSetRefinable.Add hash (HashSetRefinable.Add hash s e).1 e).2 = false := by
  rw [refinable_add_ret hash (refinable_add_inv hash hInv e)]
  have hmem : RefinableMem hash (HashSetRefinable.Add hash s e).1 e :=
    (refinable_add_mem hash hInv e e).2 (Or.inr rfl)
  rw [(refinable_contains_iff hash _ e).2 hmem]
  rfl

/-- C7 counterexample: in the reachable sequential state where 0 is already
resident, the first of two consecutive Add(0) calls returns `false`, not
`true` as the claim requires of every reachable state. -/
theorem c7_counterexample :
    HashSetSequential.Contains (fun n => n)
        (runSeq (fun n => n) [Op.add 0] (HashSetSequential.mk 1)).1 0 = true ∧
    (HashSetSequential.Add (fun n => n)
        (runSeq (fun n => n) [Op.add 0] (HashSetSequential.mk 1)).1 0).2 = false := by
  decide

/-- C7 amended: in every reachable state of every variant, two consecutive
Add(e) calls return `true` then `false` provided e is absent before the
first call (if e is already present the first call returns `false`); the
second call always returns `false`; and Remove(e) on an absent element
returns `false`. -/
theorem c7_idempotence_amended (hash : α → Nat) (c : Nat) (hc : 0 < c)
    (ops : List (Op α)) (e : α) :
    ((HashSetSequential.Contains hash (runSeq hash ops (HashSetSequential.mk c)).1 e = false →
        (HashSetSequential.Add hash (runSeq hash ops (HashSetSequential.mk c)).1 e).2 = true) ∧
      (HashSetSequential.Add hash
        (HashSetSequential.Add hash (runSeq hash ops (HashSetSequential.mk c)).1 e).1 e).2 = false ∧
      (HashSetSequential.Contains hash (runSeq hash ops (HashSetSequential.mk c)).1 e = false →
        (HashSetSequential.Remove hash (runSeq hash ops (HashSetSequential.mk c)).1 e).2 = false)) ∧
    ((HashSetCoarseGrained.Contains hash (runCoarse hash ops (HashSetCoarseGrained.mk c)).1 e = false →
        (HashSetCoarseGrained.Add hash (runCoarse hash ops (HashSetCoarseGrained.mk c)).1 e).2 = true) ∧
      (HashSetCoarseGrained.Add hash
        (HashSetCoarseGrained.Add hash (runCoarse hash ops (HashSetCoarseGrained.mk c)).1 e).1 e).2 = false ∧
      (HashSetCoarseGrained.Contains hash (runCoarse hash ops (HashSetCoarseGrained.mk c)).1 e = false →
        (HashSetCoarseGrained.Remove hash (runCoarse hash ops (HashSetCoarseGrained.mk c)).1 e).2 = false)) ∧
    ((HashSetStriped.Contains hash (runStriped hash ops (HashSetStriped.mk c)).1 e = false →
        (HashSetStriped.Add hash (runStriped hash ops (HashSetStriped.mk c)).1 e).2 = true) ∧
      (HashSetStriped.Add hash
        (HashSetStriped.Add hash (runStriped hash ops (HashSetStriped.mk c)).1 e).1 e).2 = false ∧
      (HashSetStriped.Contains hash (runStriped hash ops (HashSetStriped.mk c)).1 e = false →
        (HashSetStriped.Remove hash (runStriped hash ops (HashSetStriped.mk c)).1 e).2 = false)) ∧
    ((HashSetRefinable.Contains hash (runRefinable hash ops (HashSetRefinable.mk c)).1 e = false →
        (HashSetRefinable.Add hash (runRefinable hash ops (HashSetRefinable.mk c)).1 e).2 = true) ∧
      (HashSetRefinable.Add hash
        (HashSetRefinable.Add hash (runRefinable hash ops (HashSetRefinable.mk c)).1 e).1 e).2 = false ∧
      (HashSetRefinable.Contains hash (runRefinable hash ops (HashSetRefinable.mk c)).1 e = false →
        (HashSetRefinable.Remove hash (runRefinable hash ops (HashSetRefinable.mk c)).1 e).2 = false)) := by
  have hseq := runSeq_inv hash c hc ops
  have hstr := runStriped_inv hash c hc ops
  have href := runRefinable_inv hash c hc ops
  refine ⟨⟨?_, seq_add_twice_false hash hseq e, ?_⟩,
    ⟨?_, seq_add_twice_false hash hseq e, ?_⟩,
    ⟨?_, striped_add_twice_false hash hstr e, ?_⟩,
    ⟨?_, refinable_add_twice_false hash href e, ?_⟩⟩
  · intro h
    rw [seq_add_ret, h]
    rfl
  · intro h
    rw [seq_remove_ret, h]
  · intro h
    show (HashSetSequential.Add hash (runSeq hash ops (HashSetSequential.mk c)).1 e).2 = true
    rw [seq_add_ret]
    rw [show HashSetSequential.Contains hash (runSeq hash ops (HashSetSequential.mk c)).1 e = false from h]
    rfl
  · intro h
    show (HashSetSequential.Remove hash (runSeq hash ops (HashSetSequential.mk c)).1 e).2 = false
    rw [seq_remove_ret]
    exact h
  · intro h
    rw [striped_add_ret hash hstr, h]
    rfl
  · intro h
    rw [striped_remove_ret, h]
  · intro h
    rw [refinable_add_ret hash href, h]
    rfl
  · intro h
    rw [refinable_remove_ret, h]

/-! ## Add on a present element (C8) -/

/-- C8 counterexample: in the reachable striped state with capacity 1 and
five resident elements, Add(0) with 0 already resident returns `false` yet
doubles the capacity (the deferred resize fires first), so the call is not
mutation-free. -/
theorem c8_counterexample :
    HashSetStriped.Contains (fun n => n)
        (runStriped (fun n => n) [Op.add 0, Op.add 1, Op.add 2, Op.add 3, Op.add 4]
          (HashSetStriped.mk 1)).1 0 = true ∧
    (HashSetStriped.Add (fun n => n)
        (runStriped (fun n => n) [Op.add 0, Op.add 1, Op.add 2, Op.add 3, Op.add 4]
          (HashSetStriped.mk 1)).1 0).2 = false ∧
    (runStriped (fun n => n) [Op.add 0, Op.add 1, Op.add 2, Op.add 3, Op.add 4]
        (HashSetStriped.mk 1)).1.capacity_ = 1 ∧
    (HashSetStriped.Add (fun n => n)
        (runStriped (fun n => n) [Op.add 0, Op.add 1, Op.add 2, Op.add 3, Op.add 4]
          (HashSetStriped.mk 1)).1 0).1.capacity_ = 2 := by
  decide

/-- C8 amended: Add on a resident element returns `false` and inserts
nothing.  For Sequential and CoarseGrained the state is completely
unchanged.  For Striped and Refinable the same holds whenever the
load-factor pre-check does not fire (`size_ ≤ 4*capacity_`); when it fires,
Add first performs the pending resize, so `size_` and the resident set are
unchanged but the capacity and table change as the resize dictates. -/
theorem c8_add_present_amended (hash : α → Nat) :
    (∀ (s : SeqState α) (e : α), HashSetSequential.Contains hash s e = true →
      HashSetSequential.Add hash s e = (s, false)) ∧
    (∀ (s : SeqState α) (e : α), HashSetCoarseGrained.Contains hash s e = true →
      HashSetCoarseGrained.Add hash s e = (s, false)) ∧
    (∀ (s : StripedState α) (e : α), StripedInv hash s →
      HashSetStriped.Contains hash s e = true →
      (HashSetStriped.Add hash s e).2 = false ∧
      (HashSetStriped.Add hash s e).1.size_ = s.size_ ∧
      (∀ x, StripedMem hash (HashSetStriped.Add hash s e).1 x ↔ StripedMem hash s x) ∧
      (s.size_ ≤ 4 * s.capacity_ → HashSetStriped.Add hash s e = (s, false))) ∧
    (∀ (s : RefinableState α) (e : α), RefinableInv hash s →
      HashSetRefinable.Contains hash s e = true →
      (HashSetRefinable.Add hash s e).2 = false ∧
      (HashSetRefinable.Add hash s e).1.size_ = s.size_ ∧
      (∀ x, RefinableMem hash (HashSetRefinable.Add hash s e).1 x ↔ RefinableMem hash s x) ∧
      (s.size_ ≤ 4 * s.capacity_ → HashSetRefinable.Add hash s e = (s, false))) := by
  refine ⟨?_, ?_, ?_, ?_⟩
  · intro s e h
    have hm : e ∈ bucketAt s.table_ (hash e % s.capacity_) := (seq_contains_iff hash s e).1 h
    rw [HashSetSequential.Add, if_pos hm]
  · intro s e h
    have hm : e ∈ bucketAt s.table_ (hash e % s.capacity_) := (seq_contains_iff hash s e).1 h
    show HashSetSequential.Add hash s e = (s, false)
    rw [HashSetSequential.Add, if_pos hm]
  · intro s e hInv h
    have hret : (HashSetStriped.Add hash s e).2 = false := by
      rw [striped_add_ret hash hInv, h]
      rfl
    refine ⟨hret, ?_, ?_, ?_⟩
    · rw [striped_add_size, hret]
      simp
    · intro x
      rw [striped_add_mem hash hInv e x]
      constructor
      · rintro (hx | rfl)
        · exact hx
        · exact (striped_contains_iff hash s x).1 h
      · exact Or.inl
    · intro hle
      have hr : ¬ (s.size_ > 4 * s.capacity_) := by omega
      have hm : e ∈ bucketAt s.table_ (hash e % s.capacity_) :=
        (striped_contains_iff hash s e).1 h
      rw [HashSetStriped.Add, if_neg hr, HashSetStriped.addLocked, if_pos hm]
  · intro s e hInv h
    have hret : (HashSetRefinable.Add hash s e).2 = false := by
      rw [refinable_add_ret hash hInv, h]
      rfl
    refine ⟨hret, ?_, ?_, ?_⟩
    · rw [refinable_add_size, hret]
      simp
    · intro x
      rw [refinable_add_mem hash hInv e x]
      constructor
      · rintro (hx | rfl)
        · exact hx
        · exact (refinable_contains_iff hash s x).1 h
      · exact Or.inl
    · intro hle
      have hr : ¬ (s.size_ > 4 * s.capacity_) := by omega
      have hm : e ∈ bucketAt s.table_ (hash e % s.capacity_) :=
        (refinable_contains_iff hash s e).1 h
      rw [HashSetRefinable.Add, if_neg hr, HashSetRefinable.addLocked, if_pos hm]

/-! ## Bulk insertion and the resize trigger (C3) -/

theorem addAll_nil {σ : Type} (A : σ → α → σ × Bool) (s : σ) :
    addAll A ([] : List α) s = s := rfl

theorem addAll_cons {σ : Type} (A : σ → α → σ × Bool) (e : α) (l : List α) (s : σ) :
    addAll A (e :: l) s = addAll A l (A s e).1 := rfl

theorem addAll_append {σ : Type} (A : σ → α → σ × Bool) (l₁ l₂ : List α) (s : σ) :
    addAll A (l₁ ++ l₂) s = addAll A l₂ (addAll A l₁ s) := by
  simp [addAll, List.foldl_append]

theorem seq_addAll_no_resize (hash : α → Nat) (l : List α) :
    ∀ s : SeqState α, SeqInv hash s → l.Nodup →
      (∀ x ∈ l, ¬ SeqMem hash s x) → s.size_ + l.length ≤ 4 * s.capacity_ →
      SeqInv hash (addAll (HashSetSequential.Add hash) l s) ∧
      (addAll (HashSetSequential.Add hash) l s).capacity_ = s.capacity_ ∧
      (addAll (HashSetSequential.Add hash) l s).size_ = s.size_ + l.length ∧
      (∀ x, SeqMem hash (addAll (HashSetSequential.Add hash) l s) x ↔
        SeqMem hash s x ∨ x ∈ l) := by
  induction l with
  | nil =>
    intro s hInv _ _ _
    exact ⟨hInv, rfl, by simp [addAll_nil], fun x => by simp [addAll_nil]⟩
  | cons e l ih =>
    intro s hInv hnd hfresh hle
    have hlcons : (e :: l).length = l.length + 1 := rfl
    have hne : ¬ SeqMem hash s e := hfresh e (List.mem_cons_self e l)
    have hcont : HashSetSequential.Contains hash s e = false :=
      (seq_contains_false_iff hash s e).2 hne
    have hret : (HashSetSequential.Add hash s e).2 = true := by
      rw [seq_add_ret, hcont]
      rfl
    have hsz : (HashSetSequential.Add hash s e).1.size_ = s.size_ + 1 := by
      rw [seq_add_size, hret]
      rfl
    have hcap : (HashSetSequential.Add hash s e).1.capacity_ = s.capacity_ := by
      rw [seq_add_cap, if_neg]
      rintro ⟨-, hgt⟩
      rw [hlcons] at hle
      omega
    have hInv1 := seq_add_inv hash hInv e
    have hmem1 := seq_add_mem hash hInv e
    have hfresh1 : ∀ x ∈ l, ¬ SeqMem hash (HashSetSequential.Add hash s e).1 x := by
      intro x hx
      rw [hmem1 x]
      rintro (hmx | rfl)
      · exact hfresh x (List.mem_cons_of_mem e hx) hmx
      · exact (List.nodup_cons.1 hnd).1 hx
    obtain ⟨hI, hC, hS, hM⟩ := ih (HashSetSequential.Add hash s e).1 hInv1
      (List.nodup_cons.1 hnd).2 hfresh1
      (by rw [hsz, hcap]; rw [hlcons] at hle; omega)
    rw [addAll_cons]
    refine ⟨hI, by rw [hC, hcap], by rw [hS, hsz, hlcons]; omega, fun x => ?_⟩
    rw [hM x, hmem1 x, List.mem_cons]
    tauto

theorem striped_addAll_no_resize (hash : α → Nat) (l : List α) :
    ∀ s : StripedState α, StripedInv hash s → l.Nodup →
      (∀ x ∈ l, ¬ StripedMem hash s x) → s.size_ + l.length ≤ 4 * s.capacity_ + 1 →
      StripedInv hash (addAll (HashSetStriped.Add hash) l s) ∧
      (addAll (HashSetStriped.Add hash) l s).capacity_ = s.capacity_ ∧
      (addAll (HashSetStriped.Add hash) l s).mutex_count_ = s.mutex_count_ ∧
      (addAll (HashSetStriped.Add hash) l s).size_ = s.size_ + l.length ∧
      (∀ x, StripedMem hash (addAll (HashSetStriped.Add hash) l s) x ↔
        StripedMem hash s x ∨ x ∈ l) := by
  induction l with
  | nil =>
    intro s hInv _ _ _
    exact ⟨hInv, rfl, rfl, by simp [addAll_nil], fun x => by simp [addAll_nil]⟩
  | cons e l ih =>
    intro s hInv hnd hfresh hle
    have hlcons : (e :: l).length = l.length + 1 := rfl
    have hr : ¬ (s.size_ > 4 * s.capacity_) := by
      rw [hlcons] at hle
      omega
    have hne : ¬ StripedMem hash s e := hfresh e (List.mem_cons_self e l)
    have hcont : HashSetStriped.Contains hash s e = false :=
      (striped_contains_false_iff hash s e).2 hne
    have hret : (HashSetStriped.Add hash s e).2 = true := by
      rw [striped_add_ret hash hInv, hcont]
      rfl
    have hsz : (HashSetStriped.Add hash s e).1.size_ = s.size_ + 1 := by
      rw [striped_add_size, hret]
      rfl
    have hcap : (HashSetStriped.Add hash s e).1.capacity_ = s.capacity_ := by
      rw [striped_add_cap, if_neg hr]
    have hmut : (HashSetStriped.Add hash s e).1.mutex_count_ = s.mutex_count_ :=
      striped_add_mutex hash s e
    have hInv1 := striped_add_inv hash hInv e
    have hmem1 := striped_add_mem hash hInv e
    have hfresh1 : ∀ x ∈ l, ¬ StripedMem hash (HashSetStriped.Add hash s e).1 x := by
      intro x hx
      rw [hmem1 x]
      rintro (hmx | rfl)
      · exact hfresh x (List.mem_cons_of_mem e hx) hmx
      · exact (List.nodup_cons.1 hnd).1 hx
    obtain ⟨hI, hC, hMu, hS, hM⟩ := ih (HashSetStriped.Add hash s e).1 hInv1
      (List.nodup_cons.1 hnd).2 hfresh1
      (by rw [hsz, hcap]; rw [hlcons] at hle; omega)
    rw [addAll_cons]
    refine ⟨hI, by rw [hC, hcap], by rw [hMu, hmut],
      by rw [hS, hsz, hlcons]; omega, fun x => ?_⟩
    rw [hM x, hmem1 x, List.mem_cons]
    tauto

theorem refinable_addAll_no_resize (hash : α → Nat) (l : List α) :
    ∀ s : RefinableState α, RefinableInv hash s → l.Nodup →
      (∀ x ∈ l, ¬ RefinableMem hash s x) → s.size_ + l.length ≤ 4 * s.capacity_ + 1 →
      RefinableInv hash (addAll (HashSetRefinable.Add hash) l s) ∧
      (addAll (HashSetRefinable.Add hash) l s).capacity_ = s.capacity_ ∧
      (addAll (HashSetRefinable.Add hash) l s).size_ = s.size_ + l.length ∧
      (∀ x, RefinableMem hash (addAll (HashSetRefinable.Add hash) l s) x ↔
        RefinableMem hash s x ∨ x ∈ l) := by
  induction l with
  | nil =>
    intro s hInv _ _ _
    exact ⟨hInv, rfl, by simp [addAll_nil], fun x => by simp [addAll_nil]⟩
  | cons e l ih =>
    intro s hInv hnd hfresh hle
    have hlcons : (e :: l).length = l.length + 1 := rfl
    have hr : ¬ (s.size_ > 4 * s.capacity_) := by
      rw [hlcons] at hle
      omega
    have hne : ¬ RefinableMem hash s e := hfresh e (List.mem_cons_self e l)
    have hcont : HashSetRefinable.Contains hash s e = false :=
      (refinable_contains_false_iff hash s e).2 hne
    have hret : (HashSetRefinable.Add hash s e).2 = true := by
      rw [refinable_add_ret hash hInv, hcont]
      rfl
    have hsz : (HashSetRefinable.Add hash s e).1.size_ = s.size_ + 1 := by
      rw [refinable_add_size, hret]
      rfl
    have hcap : (HashSetRefinable.Add hash s e).1.capacity_ = s.capacity_ := by
      rw [refinable_add_cap, if_neg hr]
    have hInv1 := refinable_add_inv hash hInv e
    have hmem1 := refinable_add_mem hash hInv e
    have hfresh1 : ∀ x ∈ l, ¬ RefinableMem hash (HashSetRefinable.Add hash s e).1 x := by
      intro x hx
      rw [hmem1 x]
      rintro (hmx | rfl)
      · exact hfresh x (List.mem_cons_of_mem e hx) hmx
      · exact (List.nodup_cons.1 hnd).1 hx
    obtain ⟨hI, hC, hS, hM⟩ := ih (HashSetRefinable.Add hash s e).1 hInv1
      (List.nodup_cons.1 hnd).2 hfresh1
      (by rw [hsz, hcap]; rw [hlcons] at hle; omega)
    rw [addAll_cons]
    refine ⟨hI, by rw [hC, hcap], by rw [hS, hsz, hlcons]; omega, fun x => ?_⟩
    rw [hM x, hmem1 x, List.mem_cons]
    tauto

theorem seq_insert_resize (hash : α → Nat) (c : Nat) (hc : 0 < c) (l : List α)
    (hnd : l.Nodup) (hlen : l.length = 4 * c + 1) :
    (addAll (HashSetSequential.Add hash) l (HashSetSequential.mk c)).capacity_ = 2 * c ∧
    ∀ x ∈ l, HashSetSequential.Contains hash
        (addAll (HashSetSequential.Add hash) l (HashSetSequential.mk c)) x = true ∧
      x ∈ bucketAt (addAll (HashSetSequential.Add hash) l (HashSetSequential.mk c)).table_
        (hash x % (2 * c)) := by
  rcases List.eq_nil_or_concat l with rfl | ⟨l₁, e, rfl⟩
  · simp at hlen
  rw [List.concat_eq_append] at *
  have hlen₁ : l₁.length = 4 * c := by
    rw [List.length_append] at hlen
    simp at hlen
    omega
  obtain ⟨hnd₁, -, hdisj⟩ := List.nodup_append.1 hnd
  have henotin : e ∉ l₁ := fun he => hdisj he (List.mem_singleton_self e)
  obtain ⟨hI₁, hC₁, hS₁, hM₁⟩ := seq_addAll_no_resize hash l₁ (HashSetSequential.mk c)
    (seq_mk_inv hash c hc) hnd₁
    (fun x _ => memTable_emptyTable hash c c x)
    (by rw [hlen₁]; show 0 + 4 * c ≤ 4 * c; omega)
  rw [addAll_append, addAll_cons, addAll_nil]
  have hmkcap : (HashSetSequential.mk c : SeqState α).capacity_ = c := rfl
  have hmksz : (HashSetSequential.mk c : SeqState α).size_ = 0 := rfl
  have hfreshE : ¬ SeqMem hash (addAll (HashSetSequential.Add hash) l₁ (HashSetSequential.mk c)) e := by
    rw [hM₁ e]
    rintro (hm | hm)
    · exact memTable_emptyTable hash c c e hm
    · exact henotin hm
  have hret : (HashSetSequential.Add hash
      (addAll (HashSetSequential.Add hash) l₁ (HashSetSequential.mk c)) e).2 = true := by
    rw [seq_add_ret, (seq_contains_false_iff hash _ e).2 hfreshE]
    rfl
  have hcap : (HashSetSequential.Add hash
      (addAll (HashSetSequential.Add hash) l₁ (HashSetSequential.mk c)) e).1.capacity_ = 2 * c := by
    rw [seq_add_cap, if_pos ⟨hret, by rw [hS₁, hC₁, hmkcap, hmksz, hlen₁]; omega⟩, hC₁, hmkcap]
    omega
  have hmemF := seq_add_mem hash hI₁ e
  refine ⟨hcap, fun x hx => ?_⟩
  have hmx : SeqMem hash (HashSetSequential.Add hash
      (addAll (HashSetSequential.Add hash) l₁ (HashSetSequential.mk c)) e).1 x := by
    rw [hmemF x, hM₁ x]
    rw [List.mem_append] at hx
    rcases hx with hx | hx
    · exact Or.inl (Or.inr hx)
    · exact Or.inr (by simpa using hx)
  refine ⟨(seq_contains_iff hash _ x).2 hmx, ?_⟩
  rw [SeqMem, memTable, hcap] at hmx
  exact hmx

theorem striped_insert_no_trigger (hash : α → Nat) (c : Nat) (hc : 0 < c)
    (l : List α) (hnd : l.Nodup) (hlen : l.length = 4 * c + 1) :
    (addAll (HashSetStriped.Add hash) l (HashSetStriped.mk c)).capacity_ = c ∧
    ∀ x ∈ l, HashSetStriped.Contains hash
      (addAll (HashSetStriped.Add hash) l (HashSetStriped.mk c)) x = true := by
  obtain ⟨hI, hC, hMu, hS, hM⟩ := striped_addAll_no_resize hash l (HashSetStriped.mk c)
    (striped_mk_inv hash c hc) hnd
    (fun x _ => memTable_emptyTable hash c c x)
    (by rw [hlen]; show 0 + (4 * c + 1) ≤ 4 * c + 1; omega)
  refine ⟨by rw [hC]; rfl, fun x hx => ?_⟩
  exact (striped_contains_iff hash _ x).2 ((hM x).2 (Or.inr hx))

theorem striped_insert_resize (hash : α → Nat) (c : Nat) (hc : 0 < c)
    (l : List α) (hnd : l.Nodup) (hlen : l.length = 4 * c + 2) :
    (addAll (HashSetStriped.Add hash) l (HashSetStriped.mk c)).capacity_ = 2 * c ∧
    ∀ x ∈ l, HashSetStriped.Contains hash
        (addAll (HashSetStriped.Add hash) l (HashSetStriped.mk c)) x = true ∧
      x ∈ bucketAt (addAll (HashSetStriped.Add hash) l (HashSetStriped.mk c)).table_
        (hash x % (2 * c)) := by
  rcases List.eq_nil_or_concat l with rfl | ⟨l₁, e, rfl⟩
  · simp at hlen
  rw [List.concat_eq_append] at *
  have hlen₁ : l₁.length = 4 * c + 1 := by
    rw [List.length_append] at hlen
    simp at hlen
    omega
  obtain ⟨hnd₁, -, hdisj⟩ := List.nodup_append.1 hnd
  have henotin : e ∉ l₁ := fun he => hdisj he (List.mem_singleton_self e)
  obtain ⟨hI₁, hC₁, hMu₁, hS₁, hM₁⟩ := striped_addAll_no_resize hash l₁ (HashSetStriped.mk c)
    (striped_mk_inv hash c hc) hnd₁
    (fun x _ => memTable_emptyTable hash c c x)
    (by rw [hlen₁]; show 0 + (4 * c + 1) ≤ 4 * c + 1; omega)
  rw [addAll_append, addAll_cons, addAll_nil]
  have hmkcap : (HashSetStriped.mk c : StripedState α).capacity_ = c := rfl
  have hmksz : (HashSetStriped.mk c : StripedState α).size_ = 0 := rfl
  have hcap : (HashSetStriped.Add hash
      (addAll (HashSetStriped.Add hash) l₁ (HashSetStriped.mk c)) e).1.capacity_ = 2 * c := by
    rw [striped_add_cap, if_pos (by rw [hS₁, hC₁, hmkcap, hmksz, hlen₁]; omega), hC₁, hmkcap]
    omega
  have hmemF := striped_add_mem hash hI₁ e
  refine ⟨hcap, fun x hx => ?_⟩
  have hmx : StripedMem hash (HashSetStriped.Add hash
      (addAll (HashSetStriped.Add hash) l₁ (HashSetStriped.mk c)) e).1 x := by
    rw [hmemF x, hM₁ x]
    rw [List.mem_append] at hx
    rcases hx with hx | hx
    · exact Or.inl (Or.inr hx)
    · exact Or.inr (by simpa using hx)
  refine ⟨(striped_contains_iff hash _ x).2 hmx, ?_⟩
  rw [StripedMem, memTable, hcap] at hmx
  exact hmx

theorem refinable_insert_no_trigger (hash : α → Nat) (c : Nat) (hc : 0 < c)
    (l : List α) (hnd : l.Nodup) (hlen : l.length = 4 * c + 1) :
    (addAll (HashSetRefinable.Add hash) l (HashSetRefinable.mk c)).capacity_ = c ∧
    ∀ x ∈ l, HashSetRefinable.Contains hash
      (addAll (HashSetRefinable.Add hash) l (HashSetRefinable.mk c)) x = true := by
  obtain ⟨hI, hC, hS, hM⟩ := refinable_addAll_no_resize hash l (HashSetRefinable.mk c)
    (refinable_mk_inv hash c hc) hnd
    (fun x _ => memTable_emptyTable hash c c x)
    (by rw [hlen]; show 0 + (4 * c + 1) ≤ 4 * c + 1; omega)
  refine ⟨by rw [hC]; rfl, fun x hx => ?_⟩
  exact (refinable_contains_iff hash _ x).2 ((hM x).2 (Or.inr hx))

theorem refinable_insert_resize (hash : α → Nat) (c : Nat) (hc : 0 < c)
    (l : List α) (hnd : l.Nodup) (hlen : l.length = 4 * c + 2) :
    (addAll (HashSetRefinable.Add hash) l (HashSetRefinable.mk c)).capacity_ = 2 * c ∧
    ∀ x ∈ l, HashSetRefinable.Contains hash
        (addAll (HashSetRefinable.Add hash) l (HashSetRefinable.mk c)) x = true ∧
      x ∈ bucketAt (addAll (HashSetRefinable.Add hash) l (HashSetRefinable.mk c)).table_
        (hash x % (2 * c)) := by
  rcases List.eq_nil_or_concat l with rfl | ⟨l₁, e, rfl⟩
  · simp at hlen
  rw [List.concat_eq_append] at *
  have hlen₁ : l₁.length = 4 * c + 1 := by
    rw [List.length_append] at hlen
    simp at hlen
    omega
  obtain ⟨hnd₁, -, hdisj⟩ := List.nodup_append.1 hnd
  have henotin : e ∉ l₁ := fun he => hdisj he (List.mem_singleton_self e)
  obtain ⟨hI₁, hC₁, hS₁, hM₁⟩ := refinable_addAll_no_resize hash l₁ (HashSetRefinable.mk c)
    (refinable_mk_inv hash c hc) hnd₁
    (fun x _ => memTable_emptyTable hash c c x)
    (by rw [hlen₁]; show 0 + (4 * c + 1) ≤ 4 * c + 1; omega)
  rw [addAll_append, addAll_cons, addAll_nil]
  have hmkcap : (HashSetRefinable.mk c : RefinableState α).capacity_ = c := rfl
  have hmksz : (HashSetRefinable.mk c : RefinableState α).size_ = 0 := rfl
  have hcap : (HashSetRefinable.Add hash
      (addAll (HashSetRefinable.Add hash) l₁ (HashSetRefinable.mk c)) e).1.capacity_ = 2 * c := by
    rw [refinable_add_cap, if_pos (by rw [hS₁, hC₁, hmkcap, hmksz, hlen₁]; omega), hC₁, hmkcap]
    omega
  have hmemF := refinable_add_mem hash hI₁ e
  refine ⟨hcap, fun x hx => ?_⟩
  have hmx : RefinableMem hash (HashSetRefinable.Add hash
      (addAll (HashSetRefinable.Add hash) l₁ (HashSetRefinable.mk c)) e).1 x := by
    rw [hmemF x, hM₁ x]
    rw [List.mem_append] at hx
    rcases hx with hx | hx
    · exact Or.inl (Or.inr hx)
    · exact Or.inr (by simpa using hx)
  refine ⟨(refinable_contains_iff hash _ x).2 hmx, ?_⟩
  rw [RefinableMem, memTable, hcap] at hmx
  exact hmx

/-- C3 counterexample: sequentially inserting `4*1 + 1 = 5` distinct
elements into a fresh `HashSetStriped` of capacity 1 triggers no doubling
at all (the load-factor check precedes the insertion), so the final
capacity is 1, not `2*1`. -/
theorem c3_counterexample :
    (addAll (HashSetStriped.Add (fun n => n)) [0, 1, 2, 3, 4]
        (HashSetStriped.mk 1)).capacity_ = 1 ∧
    (1 : Nat) ≠ 2 * 1 := by
  decide

/-- C3 amended: for Sequential and CoarseGrained, inserting `4*c + 1`
distinct elements into a fresh set of capacity `c` doubles the capacity
exactly once (final capacity `2*c`) and leaves every inserted element
retrievable via Contains from bucket `hash x % (2*c)`.  For Striped and
Refinable the pre-insertion load-factor check defers the doubling by one
insertion: after `4*c + 1` distinct inserts the capacity is still `c`
(all elements retrievable), and after `4*c + 2` distinct inserts the
capacity has doubled exactly once to `2*c` with every element in bucket
`hash x % (2*c)`. -/
theorem c3_resize_amended (hash : α → Nat) (c : Nat) (hc : 0 < c)
    (l l2 : List α) (hnd : l.Nodup) (hlen : l.length = 4 * c + 1)
    (hnd2 : l2.Nodup) (hlen2 : l2.length = 4 * c + 2) :
    ((addAll (HashSetSequential.Add hash) l (HashSetSequential.mk c)).capacity_ = 2 * c ∧
      ∀ x ∈ l, HashSetSequential.Contains hash
          (addAll (HashSetSequential.Add hash) l (HashSetSequential.mk c)) x = true ∧
        x ∈ bucketAt (addAll (HashSetSequential.Add hash) l
          (HashSetSequential.mk c)).table_ (hash x % (2 * c))) ∧
    ((addAll (HashSetCoarseGrained.Add hash) l (HashSetCoarseGrained.mk c)).capacity_ = 2 * c ∧
      ∀ x ∈ l, HashSetCoarseGrained.Contains hash
          (addAll (HashSetCoarseGrained.Add hash) l (HashSetCoarseGrained.mk c)) x = true ∧
        x ∈ bucketAt (addAll (HashSetCoarseGrained.Add hash) l
          (HashSetCoarseGrained.mk c)).table_ (hash x % (2 * c))) ∧
    ((addAll (HashSetStriped.Add hash) l (HashSetStriped.mk c)).capacity_ = c ∧
      (∀ x ∈ l, HashSetStriped.Contains hash
        (addAll (HashSetStriped.Add hash) l (HashSetStriped.mk c)) x = true) ∧
      (addAll (HashSetStriped.Add hash) l2 (HashSetStriped.mk c)).capacity_ = 2 * c ∧
      ∀ x ∈ l2, HashSetStriped.Contains hash
          (addAll (HashSetStriped.Add hash) l2 (HashSetStriped.mk c)) x = true ∧
        x ∈ bucketAt (addAll (HashSetStriped.Add hash) l2
          (HashSetStriped.mk c)).table_ (hash x % (2 * c))) ∧
    ((addAll (HashSetRefinable.Add hash) l (HashSetRefinable.mk c)).capacity_ = c ∧
      (∀ x ∈ l, HashSetRefinable.Contains hash
        (addAll (HashSetRefinable.Add hash) l (HashSetRefinable.mk c)) x = true) ∧
      (addAll (HashSetRefinable.Add hash) l2 (HashSetRefinable.mk c)).capacity_ = 2 * c ∧
      ∀ x ∈ l2, HashSetRefinable.Contains hash
          (addAll (HashSetRefinable.Add hash) l2 (HashSetRefinable.mk c)) x = true ∧
        x ∈ bucketAt (addAll (HashSetRefinable.Add hash) l2
          (HashSetRefinable.mk c)).table_ (hash x % (2 * c))) := by
  have hseq := seq_insert_resize hash c hc l hnd hlen
  have hstr1 := striped_insert_no_trigger hash c hc l hnd hlen
  have hstr2 := striped_insert_resize hash c hc l2 hnd2 hlen2
  have href1 := refinable_insert_no_trigger hash c hc l hnd hlen
  have href2 := refinable_insert_resize hash c hc l2 hnd2 hlen2
  exact ⟨hseq, hseq, ⟨hstr1.1, hstr1.2, hstr2.1, hstr2.2⟩,
    ⟨href1.1, href1.2, href2.1, href2.2⟩⟩

/-! ## Witnesses -/

/-- Witness for C1 at a concrete hash, capacity, and operation list. -/
theorem c1_witness :
    0 < 1 ∧
    (runStriped (fun n => n) [Op.add 3, Op.add 3, Op.remove 3]
        (HashSetStriped.mk 1)).2 =
      (runSeq (fun n => n) [Op.add 3, Op.add 3, Op.remove 3]
        (HashSetSequential.mk 1)).2 :=
  ⟨Nat.one_pos, ((c1_variants_refine_sequential (fun n => n) 1 Nat.one_pos
    [Op.add 3, Op.add 3, Op.remove 3]).2.1).1⟩

/-- Witness for C2 at a concrete hash, capacity, and operation list. -/
theorem c2_witness :
    0 < 1 ∧
    (runSeq (fun n => n) [Op.add 7] (HashSetSequential.mk 1)).1.size_ =
      tableSize (runSeq (fun n => n) [Op.add 7] (HashSetSequential.mk 1)).1.table_ :=
  ⟨Nat.one_pos, (c2_table_invariants (fun n => n) 1 Nat.one_pos [Op.add 7]).1.2.2⟩

/-- Witness for C3: capacity 1, five and six distinct elements. -/
theorem c3_witness :
    (0 < 1 ∧ ([0, 1, 2, 3, 4] : List Nat).Nodup ∧
      ([0, 1, 2, 3, 4] : List Nat).length = 4 * 1 + 1 ∧
      ([0, 1, 2, 3, 4, 5] : List Nat).Nodup ∧
      ([0, 1, 2, 3, 4, 5] : List Nat).length = 4 * 1 + 2) ∧
    (addAll (HashSetSequential.Add (fun n => n)) [0, 1, 2, 3, 4]
        (HashSetSequential.mk 1)).capacity_ = 2 * 1 ∧
    (addAll (HashSetStriped.Add (fun n => n)) [0, 1, 2, 3, 4, 5]
        (HashSetStriped.mk 1)).capacity_ = 2 * 1 :=
  ⟨⟨by decide, by decide, by decide, by decide, by decide⟩,
    (c3_resize_amended (fun n => n) 1 (by decide) [0, 1, 2, 3, 4]
      [0, 1, 2, 3, 4, 5] (by decide) (by decide) (by decide) (by decide)).1.1,
    (c3_resize_amended (fun n => n) 1 (by decide) [0, 1, 2, 3, 4]
      [0, 1, 2, 3, 4, 5] (by decide) (by decide) (by decide) (by decide)).2.2.1.2.2.1⟩

/-- Witness for C5: a stale observation leaves the state unchanged, and a
second resize from the same observation is a no-op. -/
theorem c5_witness :
    (HashSetStriped.mk 2 : StripedState Nat).capacity_ ≠ 3 ∧
    HashSetStriped.resizeFrom (fun n => n) 3 (HashSetStriped.mk 2) =
      HashSetStriped.mk 2 ∧
    HashSetStriped.resizeFrom (fun n => n) 1
        (HashSetStriped.resizeFrom (fun n => n) 1 (HashSetStriped.mk 1)) =
      HashSetStriped.resizeFrom (fun n => n) 1 (HashSetStriped.mk 1) :=
  ⟨by decide,
    (c5_recheck_amended (fun n => n)).1 (HashSetStriped.mk 2) 3 (by decide),
    (c5_recheck_amended (fun n => n)).2.2.1 (HashSetStriped.mk 1) 1⟩

/-- Witness for C7 at the fresh capacity-1 set and element 0. -/
theorem c7_witness :
    0 < 1 ∧
    (HashSetSequential.Add (fun n => n)
        (runSeq (fun n => n) [] (HashSetSequential.mk 1)).1 0).2 = true ∧
    (HashSetSequential.Add (fun n => n)
        (HashSetSequential.Add (fun n => n)
          (runSeq (fun n => n) [] (HashSetSequential.mk 1)).1 0).1 0).2 = false :=
  ⟨Nat.one_pos,
    (c7_idempotence_amended (fun n => n) 1 Nat.one_pos [] 0).1.1 (by decide),
    (c7_idempotence_amended (fun n => n) 1 Nat.one_pos [] 0).1.2.1⟩

/-- Witness for C8: a striped state below the load-factor threshold with 0
resident; Add(0) is a complete no-op returning false. -/
theorem c8_witness :
    HashSetStriped.Contains (fun n => n)
        (runStriped (fun n => n) [Op.add 0] (HashSetStriped.mk 1)).1 0 = true ∧
    HashSetStriped.Add (fun n => n)
        (runStriped (fun n => n) [Op.add 0] (HashSetStriped.mk 1)).1 0 =
      ((runStriped (fun n => n) [Op.add 0] (HashSetStriped.mk 1)).1, false) :=
  ⟨by decide,
    ((c8_add_present_amended (fun n => n)).2.2.1 _ 0
      (runStriped_inv (fun n => n) 1 Nat.one_pos [Op.add 0]) (by decide)).2.2.2 (by decide)⟩

/-- Witness for C9 at capacity 2. -/
theorem c9_witness :
    0 < 2 ∧
    HashSetSequential.Size (HashSetSequential.mk 2 : SeqState Nat) = 0 ∧
    (HashSetStriped.mk 2 : StripedState Nat).mutex_count_ = 2 :=
  ⟨by decide, (c9_fresh_empty (fun n => n) 2 (by decide)).1.1,
    (c9_fresh_empty (fun n => n) 2 (by decide)).2.2.1.2.2.1⟩

/-- Witness for C10 after a run that resizes once: the stripe count stays
1 while the capacity has grown. -/
theorem c10_witness :
    0 < 1 ∧
    (runStriped (fun n => n)
        [Op.add 0, Op.add 1, Op.add 2, Op.add 3, Op.add 4, Op.add 5]
        (HashSetStriped.mk 1)).1.mutex_count_ = 1 :=
  ⟨Nat.one_pos, (c10_stripe_alignment (fun n => n) 1 Nat.one_pos
    [Op.add 0, Op.add 1, Op.add 2, Op.add 3, Op.add 4, Op.add 5]).1⟩

end ConcurrentHashset
